import Mathlib

/-!
Verification of the word-ladder program (`ladders.py`).

The program's data model and algorithms are shallowly embedded below:

* A dictionary is the list of (stripped, lower-cased) lines of the word list
  file, in file order; `WordId` i names the word at position i.
* `sort_letters`, `ascii_letters`, the anagram-bucket neighbor computation of
  `precompute`, the `WORDS_TO_INDEX` / `INDEX_TO_WORD` maps of `load_data`,
  the BFS of `compute` together with `generate_path`, and the
  `find_words_in_group` / `find_longest_path` searches are all translated
  directly from the source.  Loops become fuel-indexed recursions; running out
  of fuel is an explicit `stuck` / `none` outcome that never occurs for fuel
  large enough, and the theorems below are stated so that this artifact is
  irrelevant (they either hold for every fuel or are conditioned on the run
  finishing).  Python `set`s of word ids are represented by lists, and all
  stated properties are membership-based, so the unspecified iteration order
  of a Python set never matters.
* Console progress output is text-only, but the progress arithmetic is not
  always harmless: both `precompute` and `compute` evaluate
  `words_done % output_steps` with `output_steps = N // 100` on every loop
  iteration, and Python raises `ZeroDivisionError` on `% 0`, so each of them
  crashes at its first iteration when `N < 100` (the bucket count for
  `precompute`, the distinct-word count for `compute`).  These crashes are
  modelled explicitly (`precompute` returns `none`, the BFS reports
  `crashed`).  The remaining progress code has no such hazard: the prints
  themselves, the progress bar, and `find_longest_path`'s timing (its gate
  is an equality test and its division only runs with `words_checked ≥ 10`)
  do not feed back into any computed value and are omitted.
-/

set_option maxRecDepth 100000

/-- A word: the list of characters of one (stripped, lowered) line of the
word list file. -/
abbrev Word := List Char

/-- `sort_letters` from the source: the letters of a word in ascending
order (Python `"".join(sorted(word))`). -/
def sort_letters (w : Word) : Word :=
  List.insertionSort (· ≤ ·) w

/-- `string.ascii_letters`: the 52 lowercase-then-uppercase ASCII letters
probed as insertion candidates by `precompute`. -/
def ascii_letters : List Char :=
  ("abcdefghijklmnopqrstuvwxyzABCDEFGHIJKLMNOPQRSTUVWXYZ").toList

/-- The canonical (sorted-letter) key of the word with id `i`, as used by
`precompute` to bucket the dictionary. -/
def wordKey (dict : List Word) (i : Nat) : Word :=
  sort_letters (dict.getD i [])

/-- The bucket keys probed when computing the neighbors of a word with
canonical key `k`: first every single-letter insertion (re-sorted), then
every single-position deletion, exactly as in `precompute`. -/
def probes (k : Word) : List Word :=
  (ascii_letters.map fun c => sort_letters (k ++ [c])) ++
    ((List.range k.length).map fun i => sort_letters (k.eraseIdx i))

/-- The neighbor set `precompute` computes for word id `i`: the union of the
buckets of every probed key that exists.  A word id `j` lands in that union
exactly when its own canonical key is one of the probed keys. -/
def neighbors (dict : List Word) (i : Nat) : List Nat :=
  (List.range dict.length).filter fun j =>
    decide (wordKey dict j ∈ probes (wordKey dict i))

/-- The bucket keys of the dictionary (`words.keys()` in `precompute`): each
canonical key once. -/
def bucketKeys (dict : List Word) : List Word :=
  (dict.map fun w => sort_letters w).dedup

/-- The ids in the bucket of key `k` (`words[k]`). -/
def bucketIds (dict : List Word) (k : Word) : List Nat :=
  (List.range dict.length).filter fun i => decide (wordKey dict i = k)

/-- The adjacency records written by `precompute`: for every bucket key, one
record per id in the bucket, pairing the id with its neighbor set.  A record
with an empty neighbor list corresponds to a line holding the id alone.
With fewer than 100 buckets, `output_steps = length // 100` is zero and the
progress update `words_done % output_steps` raises `ZeroDivisionError` at
the first bucket, before any record is written (an empty word list dies even
earlier, on the unbound loop variable of the read-count print); `none`
models those crashed runs, which emit no records at all. -/
def precompute (dict : List Word) : Option (List (Nat × List Nat)) :=
  if (bucketKeys dict).length / 100 = 0 then none
  else
    some ((bucketKeys dict).flatMap fun k =>
      (bucketIds dict k).map fun i => (i, neighbors dict i))

/-- `WORDS_TO_INDEX` as built by `load_data`: sequential insertions
`WORDS_TO_INDEX[word] = i`, so a duplicated word keeps only its last id. -/
def words_to_index (dict : List Word) : Word → Option Nat :=
  dict.enum.foldl (fun m p => fun x => if x = p.2 then some p.1 else m x)
    (fun _ => none)

/-- `INDEX_TO_WORD` as built by `load_data`: sequential insertions
`INDEX_TO_WORD[i] = word`. -/
def index_to_word (dict : List Word) : Nat → Option Word :=
  dict.enum.foldl (fun m p => fun x => if x = p.1 then some p.2 else m x)
    (fun _ => none)

/-- One line of the precomputed data file, after every token has been parsed
as an integer: `int(line[0])` keys the record and the remaining ids form the
neighbor set.  An empty line has no id token (`int("")` raises), which is the
only failure. -/
def parse_record : List Nat → Option (Nat × List Nat)
  | [] => none
  | i :: rest => some (i, rest)

/-- The adjacency-loading loop of `load_data`, over already-tokenized integer
records.  Note that it performs no validation of the ids against the
dictionary size. -/
def load_adjacency : List (List Nat) → Option (List (Nat × List Nat))
  | [] => some []
  | line :: rest =>
    match parse_record line with
    | none => none
    | some r => (load_adjacency rest).map fun m => r :: m

/-- Outcome of scanning the neighbor list of the node being expanded in
`compute`'s BFS loop: either the updated (queue, visited set, parent map)
state, or the parent map at the moment the goal was discovered. -/
inductive ScanOut where
  | next (q d : List Nat) (p : Nat → Option Nat)
  | found (p : Nat → Option Nat)

/-- The inner `for neighbor in NEIGHBORS[word]` loop of `compute`: the goal
check comes first and returns immediately; otherwise an unvisited neighbor is
enqueued, marked visited and given `word` as parent. -/
def scanNbrs (goal word : Nat) :
    List Nat → List Nat → List Nat → (Nat → Option Nat) → ScanOut
  | [], q, d, p => .next q d p
  | n :: rest, q, d, p =>
    if n = goal then .found (fun x => if x = n then some word else p x)
    else if n ∈ d then scanNbrs goal word rest q d p
    else scanNbrs goal word rest (q ++ [n]) (n :: d)
      (fun x => if x = n then some word else p x)

/-- `output_steps = len(WORDS_TO_INDEX) // 100` as computed by `compute`:
`WORDS_TO_INDEX` holds one key per distinct word, so this is the
distinct-word count divided by 100.  It is zero for dictionaries with fewer
than 100 distinct words, in which case the progress check divides by
zero. -/
def output_steps (dict : List Word) : Nat :=
  dict.dedup.length / 100

/-- Outcome of `compute`'s BFS: the parent map when the goal is found, the
no-path case when the queue empties, `crashed` when the progress check
`words_done % output_steps` divides by zero at the top of an iteration, or
`stuck` when the embedding's fuel runs out (an artifact: the Python loop
always terminates). -/
inductive BfsOut where
  | found (p : Nat → Option Nat)
  | noPath
  | crashed
  | stuck

/-- The `while stack:` loop of `compute`: pop the front of the queue,
evaluate the progress check `words_done % output_steps` (which raises
`ZeroDivisionError` exactly when `steps = 0`; for positive `steps` it only
prints), then scan the popped node's neighbor list. -/
def bfsLoop (g : Nat → List Nat) (goal steps : Nat) :
    Nat → List Nat → List Nat → (Nat → Option Nat) → BfsOut
  | _, [], _, _ => .noPath
  | 0, _ :: _, _, _ => .stuck
  | fuel + 1, w :: rest, d, p =>
    if steps = 0 then .crashed
    else
      match scanNbrs goal w (g w) rest d p with
      | .next q2 d2 p2 => bfsLoop g goal steps fuel q2 d2 p2
      | .found p2 => .found p2

/-- `generate_path`: walk the parent pointers from `goal` back to `start`
and return the path from `start` to `goal` (the source builds it reversed and
flips it at the end).  `none` covers a missing parent entry (a `KeyError`,
unreachable on real runs) or exhausted fuel. -/
def generate_path (p : Nat → Option Nat) (start : Nat) :
    Nat → Nat → Option (List Nat)
  | 0, _ => none
  | fuel + 1, goal =>
    if goal = start then some [start]
    else
      match p goal with
      | none => none
      | some w => (generate_path p start fuel w).map fun l => l ++ [goal]

/-- The observable outcome of `compute`: the word path written to the output
file and printed, an empty output file (unknown word or no path), the
uncaught `ZeroDivisionError` of the progress check (dictionaries with fewer
than 100 distinct words — nothing is written), or the fuel artifact. -/
inductive ComputeResult where
  | output (path : List Word)
  | empty
  | crashed
  | stuck
deriving DecidableEq

/-- `compute(start, goal)`: `check_words` (both lookups succeed) guards the
search and produces an empty output file on failure; otherwise the BFS runs
from the start id with `output_steps = len(WORDS_TO_INDEX) // 100` and, on
success, the id path is mapped through `INDEX_TO_WORD` and written out. -/
def compute (dict : List Word) (g : Nat → List Nat) (start goal : Word)
    (fuel : Nat) : ComputeResult :=
  match words_to_index dict start, words_to_index dict goal with
  | some s, some t =>
    match bfsLoop g t (output_steps dict) fuel [s] [s] (fun _ => none) with
    | .found p =>
      match generate_path p s fuel t with
      | some l => .output (l.map fun i => (index_to_word dict i).getD [])
      | none => .stuck
    | .noPath => .empty
    | .crashed => .crashed
    | .stuck => .stuck
  | _, _ => .empty

/-- The inner neighbor scan of `find_words_in_group`: unvisited neighbors are
enqueued and added to the result set. -/
def groupScan : List Nat → List Nat → List Nat → List Nat × List Nat
  | [], q, res => (q, res)
  | n :: rest, q, res =>
    if n ∈ res then groupScan rest q res
    else groupScan rest (q ++ [n]) (n :: res)

/-- The `while stack:` loop of `find_words_in_group`; `none` is the fuel
artifact. -/
def groupLoop (g : Nat → List Nat) : Nat → List Nat → List Nat → Option (List Nat)
  | _, [], res => some res
  | 0, _ :: _, _ => none
  | fuel + 1, w :: rest, res =>
    let s := groupScan (g w) rest res
    groupLoop g fuel s.1 s.2

/-- `find_words_in_group(start)`: flood-fill the component of `start` and
return its member set. -/
def find_words_in_group (g : Nat → List Nat) (start : Nat) (fuel : Nat) :
    Option (List Nat) :=
  groupLoop g fuel [start] [start]

/-- The inner neighbor scan of the per-source BFS in `find_longest_path`:
an unvisited neighbor is enqueued, marked done and assigned depth
`curr_steps + 1` in `steps_to`. -/
def eccScan (curr : Nat) :
    List Nat → List Nat → List Nat → (Nat → Option Nat) →
      List Nat × List Nat × (Nat → Option Nat)
  | [], q, d, st => (q, d, st)
  | n :: rest, q, d, st =>
    if n ∈ d then eccScan curr rest q d st
    else eccScan curr rest (q ++ [n]) (n :: d)
      (fun x => if x = n then some (curr + 1) else st x)

/-- The per-source `while stack:` loop of `find_longest_path`, returning the
last dequeued node together with the final `steps_to` map.  `none` covers
exhausted fuel and the (unreachable) `steps_to[word]` `KeyError`. -/
def eccLoop (g : Nat → List Nat) :
    Nat → List Nat → List Nat → (Nat → Option Nat) → Nat →
      Option (Nat × (Nat → Option Nat))
  | _, [], _, st, last => some (last, st)
  | 0, _ :: _, _, _, _ => none
  | fuel + 1, w :: rest, d, st, _ =>
    match st w with
    | none => none
    | some curr =>
      let s := eccScan curr (g w) rest d st
      eccLoop g fuel s.1 s.2.1 s.2.2 w

/-- One full BFS of `find_longest_path` from source `s`:
`stack = [start]`, `done = set(stack)`, `steps_to = {start: 0}`. -/
def eccRun (g : Nat → List Nat) (s : Nat) (fuel : Nat) :
    Option (Nat × (Nat → Option Nat)) :=
  eccLoop g fuel [s] [s] (fun x => if x = s then some 0 else none) s

/-- The `for start in group:` loop of `find_longest_path`, folding the
running maximum `(max_start, max_end, max_length)`; the accumulator is `none`
while no source has beaten the initial `max_length = 0`. -/
def flpFold (g : Nat → List Nat) (fuel : Nat) :
    List Nat → Option (Nat × Nat × Nat) → Option (Option (Nat × Nat × Nat))
  | [], acc => some acc
  | s :: rest, acc =>
    match eccRun g s fuel with
    | none => none
    | some (last, st) =>
      match st last with
      | none => none
      | some len =>
        if (match acc with | none => 0 | some (_, _, m) => m) < len then
          flpFold g fuel rest (some (s, last, len))
        else flpFold g fuel rest acc

/-- `find_longest_path` at the id level.  The outer `none` is the fuel
artifact; `some none` is the run that finishes its loop without ever
updating the maximum and then evaluates `INDEX_TO_WORD[max_start]` with
`max_start` still `None`, raising a `KeyError` instead of reporting a
result; `some (some (s, e, m))` is a reported longest path. -/
def find_longest_path (g : Nat → List Nat) (w : Nat) (fuel : Nat) :
    Option (Option (Nat × Nat × Nat)) :=
  match find_words_in_group g w fuel with
  | none => none
  | some group => flpFold g fuel group none

/-- A walk of exactly `n` edges from `s` to the second argument in graph
`g` (each step moves to a listed neighbor). -/
inductive PathLen (g : Nat → List Nat) (s : Nat) : Nat → Nat → Prop
  | base : PathLen g s s 0
  | step {u v n} : PathLen g s u n → v ∈ g u → PathLen g s v (n + 1)

/-- `u` is reachable from `s` in `g`. -/
def Reach (g : Nat → List Nat) (s u : Nat) : Prop :=
  ∃ n, PathLen g s u n

/-- `n` is the exact BFS distance from `s` to `u`: some walk of `n` edges
exists and none shorter does. -/
def IsDist (g : Nat → List Nat) (s u n : Nat) : Prop :=
  PathLen g s u n ∧ ∀ m, PathLen g s u m → n ≤ m

/-- `m` is the eccentricity of `s`: the greatest exact distance from `s` to
any node, attained by some node. -/
def IsEcc (g : Nat → List Nat) (s m : Nat) : Prop :=
  (∃ v, IsDist g s v m) ∧ ∀ v n, IsDist g s v n → n ≤ m

theorem sort_letters_perm (w : Word) : (sort_letters w).Perm w :=
  List.perm_insertionSort _ w

theorem sort_letters_sorted (w : Word) : (sort_letters w).Sorted (· ≤ ·) :=
  List.sorted_insertionSort _ w

theorem sort_letters_length (w : Word) : (sort_letters w).length = w.length :=
  List.length_insertionSort _ w

theorem sort_letters_eq_self {w : Word} (h : w.Sorted (· ≤ ·)) :
    sort_letters w = w :=
  List.eq_of_perm_of_sorted (sort_letters_perm w) (sort_letters_sorted w) h

/-- Every probed key has length one more or one less than the probing key:
insertions lengthen the key by one letter, deletions shorten it by one. -/
theorem length_of_mem_probes {k x : Word} (hx : x ∈ probes k) :
    x.length = k.length + 1 ∨ x.length + 1 = k.length := by
  unfold probes at hx
  rcases List.mem_append.1 hx with h | h
  · obtain ⟨c, _, rfl⟩ := List.mem_map.1 h
    left
    rw [sort_letters_length, List.length_append, List.length_singleton]
  · obtain ⟨i, hi, rfl⟩ := List.mem_map.1 h
    right
    have hi' : i < k.length := List.mem_range.1 hi
    rw [sort_letters_length, List.length_eraseIdx]
    simp only [hi', if_true]
    omega

/-- Membership in a neighbor set, unfolded: `j` is a dictionary id whose
canonical key is one of the probed keys of `i`'s canonical key. -/
theorem mem_neighbors {dict : List Word} {i j : Nat} :
    j ∈ neighbors dict i ↔
      j < dict.length ∧ wordKey dict j ∈ probes (wordKey dict i) := by
  unfold neighbors
  rw [List.mem_filter, List.mem_range, decide_eq_true_iff]

/-- C9: the neighbor set `precompute` computes for a word never contains an
id whose word has the same canonical sorted-letter key — in particular it
never contains the word's own id (`j = i`), and equal-length anagrams of the
word are not its neighbors.  Probed keys always differ in length from the
probing key, while equal keys have equal length. -/
theorem neighbors_no_self_no_anagram (dict : List Word) (i j : Nat)
    (hkey : wordKey dict i = wordKey dict j) : j ∉ neighbors dict i := by
  intro hmem
  have hp := (mem_neighbors.1 hmem).2
  rcases length_of_mem_probes hp with h | h <;> rw [← hkey] at h <;> omega

/-- Witness for C9 on the spec's concrete scenario extended with a true
anagram: in {"cat", "cats", "hat", "act"}, "cat" is not its own neighbor and
its anagram "act" is not its neighbor either. -/
theorem neighbors_no_self_no_anagram_witness :
    0 ∉ neighbors [("cat").toList, ("cats").toList, ("hat").toList,
      ("act").toList] 0 ∧
    3 ∉ neighbors [("cat").toList, ("cats").toList, ("hat").toList,
      ("act").toList] 0 :=
  ⟨neighbors_no_self_no_anagram _ 0 0 rfl,
    neighbors_no_self_no_anagram _ 0 3 (by decide)⟩

/-- C4 counterexample: for the one-word dictionary ["a"] (so the valid id
range is [0, 1)), the adjacency record "0 5" parses as integers, contains the
out-of-range neighbor id 5, and is accepted by the loading loop unchanged —
no failure of any kind occurs. -/
theorem load_adjacency_accepts_out_of_range :
    load_adjacency [[0, 5]] = some [(0, [5])] ∧
      ¬(5 < ([("a").toList] : List Word).length) := by
  constructor
  · rfl
  · decide

/-- C4 amended: the loading loop of `load_data` accepts every list of
integer records whose lines are nonempty, storing each record as parsed; it
performs no range check whatsoever against the dictionary size. -/
theorem load_adjacency_total (lines : List (List Nat))
    (h : ∀ l ∈ lines, l ≠ []) :
    load_adjacency lines = some (lines.map fun l => (l.headD 0, l.tail)) := by
  induction lines with
  | nil => rfl
  | cons a rest ih =>
    match a, h a (List.mem_cons_self a rest) with
    | x :: xs, _ =>
      have := ih fun l hl => h l (List.mem_cons_of_mem _ hl)
      simp [load_adjacency, parse_record, this]

/-- Witness for C4's amended statement at a concrete input. -/
theorem load_adjacency_total_witness :
    load_adjacency [[0, 5], [1]] = some [(0, [5]), (1, [])] := by
  have h : ∀ l ∈ [[0, 5], [1]], l ≠ ([] : List Nat) := by decide
  exact load_adjacency_total [[0, 5], [1]] h

/-- C5: if the start word or the goal word is missing from `WORDS_TO_INDEX`,
`compute` produces an empty output file.  This holds for every fuel value,
including fuel 0, which shows that not a single BFS queue pop is needed:
`check_words` aborts the query before the search state is even built. -/
theorem compute_unknown_word_empty (dict : List Word) (g : Nat → List Nat)
    (start goal : Word) (fuel : Nat)
    (h : words_to_index dict start = none ∨ words_to_index dict goal = none) :
    compute dict g start goal fuel = .empty := by
  unfold compute
  rcases h with h | h
  · rw [h]
  · rw [h]
    cases words_to_index dict start <;> rfl

/-- Witness for C5: "zz" is absent from the dictionary ["aa"], and the query
produces an empty output even with zero fuel. -/
theorem compute_unknown_word_empty_witness :
    compute [("aa").toList] (fun _ => []) ("zz").toList ("aa").toList 0 =
      ComputeResult.empty :=
  compute_unknown_word_empty _ _ _ _ 0 (Or.inl (by decide))

theorem mem_bucketIds {dict : List Word} {k : Word} {i : Nat} :
    i ∈ bucketIds dict k ↔ i < dict.length ∧ wordKey dict i = k := by
  unfold bucketIds
  rw [List.mem_filter, List.mem_range, decide_eq_true_iff]

theorem wordKey_mem_bucketKeys {dict : List Word} {i : Nat}
    (h : i < dict.length) : wordKey dict i ∈ bucketKeys dict := by
  unfold bucketKeys
  rw [List.mem_dedup, List.mem_map]
  refine ⟨dict[i], List.getElem_mem h, ?_⟩
  unfold wordKey
  rw [List.getD_eq_getElem dict [] h]

/-- C6 counterexample: on the three-word dictionary {"ab", "ba", "zzz"}
(three words, two anagram buckets) `precompute` divides by zero in its
progress check before writing a single record, so the adjacency data does
not contain one record per WordId in `[0, 3)` — it contains none. -/
theorem precompute_small_dict_counterexample :
    precompute [("ab").toList, ("ba").toList, ("zzz").toList] = none ∧
      ([("ab").toList, ("ba").toList, ("zzz").toList] : List Word).length
        = 3 :=
  ⟨by decide, by decide⟩

/-- C6 amended: whenever `precompute` completes (at least 100 anagram
buckets; smaller dictionaries crash in the progress check before the first
record), the records cover every word id in `[0, N)` exactly once — their
first components are a permutation of `0, …, N-1` — and the record of id
`i` pairs it with its computed neighbor set; when that set is empty the
record is the id alone. -/
theorem precompute_records_complete (dict : List Word)
    (records : List (Nat × List Nat)) (h : precompute dict = some records) :
    (records.map Prod.fst).Perm (List.range dict.length) ∧
      ∀ i, i < dict.length → (i, neighbors dict i) ∈ records := by
  have hrec : records = (bucketKeys dict).flatMap fun k =>
      (bucketIds dict k).map fun i => (i, neighbors dict i) := by
    unfold precompute at h
    split at h
    · cases h
    · injection h with h2
      exact h2.symm
  subst hrec
  constructor
  · have hmap : (((bucketKeys dict).flatMap fun k =>
        (bucketIds dict k).map fun i => (i, neighbors dict i)).map
          Prod.fst) =
        (bucketKeys dict).flatMap fun k => bucketIds dict k := by
      rw [List.map_flatMap]
      congr 1
      funext k
      rw [List.map_map]
      exact List.map_id _
    rw [hmap]
    refine (List.perm_ext_iff_of_nodup ?_ (List.nodup_range _)).2 ?_
    · rw [List.nodup_flatMap]
      refine ⟨fun k _ => (List.nodup_range _).filter _, ?_⟩
      refine (List.nodup_dedup _).imp ?_
      intro k1 k2 hne a ha1 ha2
      exact hne (((mem_bucketIds.1 ha1).2).symm.trans (mem_bucketIds.1 ha2).2)
    · intro a
      rw [List.mem_flatMap, List.mem_range]
      constructor
      · rintro ⟨k, _, ha⟩
        exact (mem_bucketIds.1 ha).1
      · intro ha
        exact ⟨wordKey dict a, wordKey_mem_bucketKeys ha,
          mem_bucketIds.2 ⟨ha, rfl⟩⟩
  · intro i hi
    rw [List.mem_flatMap]
    exact ⟨wordKey dict i, wordKey_mem_bucketKeys hi,
      List.mem_map.2 ⟨i, mem_bucketIds.2 ⟨hi, rfl⟩, rfl⟩⟩


/-- The fold building `WORDS_TO_INDEX`, generalized over the pair list. -/
def w2iFold (el : List (Nat × Word)) : Word → Option Nat :=
  el.foldl (fun m p => fun x => if x = p.2 then some p.1 else m x)
    (fun _ => none)

/-- The fold building `INDEX_TO_WORD`, generalized over the pair list. -/
def i2wFold (el : List (Nat × Word)) : Nat → Option Word :=
  el.foldl (fun m p => fun x => if x = p.1 then some p.2 else m x)
    (fun _ => none)

theorem w2iFold_append (el : List (Nat × Word)) (p : Nat × Word) (x : Word) :
    w2iFold (el ++ [p]) x = if x = p.2 then some p.1 else w2iFold el x := by
  unfold w2iFold
  rw [List.foldl_append]
  rfl

theorem i2wFold_append (el : List (Nat × Word)) (p : Nat × Word) (x : Nat) :
    i2wFold (el ++ [p]) x = if x = p.1 then some p.2 else i2wFold el x := by
  unfold i2wFold
  rw [List.foldl_append]
  rfl

theorem w2iFold_mem :
    ∀ el (w : Word) (i : Nat), w2iFold el w = some i → (i, w) ∈ el := by
  intro el
  induction el using List.reverseRecOn with
  | nil => intro w i h; exact absurd h (by simp [w2iFold])
  | append_singleton l p ih =>
    intro w i h
    rw [w2iFold_append] at h
    by_cases hx : w = p.2
    · rw [if_pos hx] at h
      cases h
      subst hx
      exact List.mem_append_right _ (by simp)
    · rw [if_neg hx] at h
      exact List.mem_append_left _ (ih w i h)

theorem w2iFold_total :
    ∀ el (w : Word) (i : Nat), (i, w) ∈ el →
      ∃ j, w2iFold el w = some j ∧ (j, w) ∈ el := by
  intro el
  induction el using List.reverseRecOn with
  | nil => intro w i h; cases h
  | append_singleton l p ih =>
    intro w i h
    by_cases hx : w = p.2
    · refine ⟨p.1, ?_, ?_⟩
      · rw [w2iFold_append, if_pos hx]
      · subst hx
        exact List.mem_append_right _ (by simp)
    · have hl : (i, w) ∈ l := by
        rcases List.mem_append.1 h with h' | h'
        · exact h'
        · exact absurd (congrArg Prod.snd (List.mem_singleton.1 h')) hx
      obtain ⟨j, hj1, hj2⟩ := ih w i hl
      refine ⟨j, ?_, List.mem_append_left _ hj2⟩
      rw [w2iFold_append, if_neg hx]
      exact hj1

theorem i2wFold_mem :
    ∀ el (i : Nat) (w : Word), i2wFold el i = some w → (i, w) ∈ el := by
  intro el
  induction el using List.reverseRecOn with
  | nil => intro i w h; exact absurd h (by simp [i2wFold])
  | append_singleton l p ih =>
    intro i w h
    rw [i2wFold_append] at h
    by_cases hx : i = p.1
    · rw [if_pos hx] at h
      cases h
      subst hx
      exact List.mem_append_right _ (by simp)
    · rw [if_neg hx] at h
      exact List.mem_append_left _ (ih i w h)

theorem i2wFold_unique :
    ∀ el (i : Nat) (w : Word), (i, w) ∈ el →
      (∀ p ∈ el, p.1 = i → p.2 = w) → i2wFold el i = some w := by
  intro el
  induction el using List.reverseRecOn with
  | nil => intro i w h; cases h
  | append_singleton l p ih =>
    intro i w h huniq
    rw [i2wFold_append]
    by_cases hx : i = p.1
    · rw [if_pos hx]
      rw [huniq p (List.mem_append_right _ (by simp)) hx.symm]
    · rw [if_neg hx]
      have hl : (i, w) ∈ l := by
        rcases List.mem_append.1 h with h' | h'
        · exact h'
        · exact absurd (congrArg Prod.fst (List.mem_singleton.1 h')) hx
      exact ih i w hl fun q hq => huniq q (List.mem_append_left _ hq)

/-- `INDEX_TO_WORD` is exactly positional lookup in the dictionary: ids are
assigned in file order and never collide. -/
theorem index_to_word_eq_getElem? (dict : List Word) (i : Nat) :
    index_to_word dict i = dict[i]? := by
  cases h : dict[i]? with
  | none =>
    cases h2 : index_to_word dict i with
    | none => rfl
    | some w =>
      have hm := i2wFold_mem dict.enum i w h2
      rw [List.mem_enum_iff_getElem?] at hm
      rw [hm] at h
      cases h
  | some w =>
    refine i2wFold_unique dict.enum i w ?_ ?_
    · exact List.mem_enum_iff_getElem?.2 h
    · intro p hp hfst
      have hp' := List.mem_enum_iff_getElem?.1 hp
      rw [hfst, h] at hp'
      cases hp'
      rfl

/-- A successful `WORDS_TO_INDEX` lookup names a position actually holding
the word (for duplicated words: the last such position). -/
theorem words_to_index_getElem? {dict : List Word} {w : Word} {i : Nat}
    (h : words_to_index dict w = some i) : dict[i]? = some w :=
  List.mem_enum_iff_getElem?.1 (w2iFold_mem dict.enum w i h)

/-- C7 counterexample: for the dictionary with the duplicated line "a", the
maps are not mutually inverse: `INDEX_TO_WORD[0] = "a"` but
`WORDS_TO_INDEX["a"] = 1` (the second insertion overwrote the first), so id
0 is unrecoverable and `INDEX_TO_WORD` is not injective. -/
theorem index_not_bijective_on_duplicates :
    index_to_word [("a").toList, ("a").toList] 0 = some (("a").toList) ∧
      words_to_index [("a").toList, ("a").toList] (("a").toList) = some 1 ∧
      ¬ words_to_index [("a").toList, ("a").toList] (("a").toList) =
        some 0 := by
  refine ⟨rfl, rfl, ?_⟩
  decide

/-- C7 amended: when the dictionary lines are pairwise distinct (no
duplicates), `WORDS_TO_INDEX` and `INDEX_TO_WORD` are mutually inverse, so
the id ↔ word mapping is a bijection; a duplicated line breaks this (the
word keeps only its last id, see the counterexample). -/
theorem index_bijection_of_nodup (dict : List Word) (hnd : dict.Nodup)
    (i : Nat) (w : Word) :
    words_to_index dict w = some i ↔ index_to_word dict i = some w := by
  rw [index_to_word_eq_getElem?]
  constructor
  · exact fun h => words_to_index_getElem? h
  · intro h
    obtain ⟨hi, hgi⟩ := List.getElem?_eq_some_iff.1 h
    obtain ⟨j, hj1, hj2⟩ := w2iFold_total dict.enum w i
      (List.mem_enum_iff_getElem?.2 h)
    have hjm := List.mem_enum_iff_getElem?.1 hj2
    obtain ⟨hjlt, hgj⟩ := List.getElem?_eq_some_iff.1 hjm
    have : j = i := (List.Nodup.getElem_inj_iff hnd).1 (hgj.trans hgi.symm)
    rwa [this] at hj1

/-- Witness for C7's amended statement on a duplicate-free dictionary. -/
theorem index_bijection_of_nodup_witness :
    words_to_index [("a").toList, ("b").toList] (("b").toList) = some 1 :=
  (index_bijection_of_nodup [("a").toList, ("b").toList] (by decide) 1
    (("b").toList)).2 (by decide)

theorem wordKey_sorted (dict : List Word) (i : Nat) :
    (wordKey dict i).Sorted (· ≤ ·) :=
  sort_letters_sorted _

/-- Membership in the probe list, unfolded into the two probe families. -/
theorem mem_probes {k x : Word} :
    x ∈ probes k ↔
      (∃ c ∈ ascii_letters, sort_letters (k ++ [c]) = x) ∨
        ∃ i, i < k.length ∧ sort_letters (k.eraseIdx i) = x := by
  unfold probes
  simp [List.mem_append, List.mem_map, List.mem_range]

theorem eraseIdx_append_cons (pre suf : Word) (c : Char) :
    (pre ++ c :: suf).eraseIdx pre.length = pre ++ suf := by
  induction pre with
  | nil => rfl
  | cons a pre ih =>
    simp only [List.cons_append, List.length_cons, List.eraseIdx_cons_succ]
    rw [ih]

/-- Deleting one position from a sorted key undoes a sorted insertion: if
`kb` is the sorted result of adding letter `c` to the sorted key `ka`, then
removing `c` from `kb` (at its position) re-sorts to exactly `ka`. -/
theorem probes_insert_to_delete {ka kb : Word} (hka : ka.Sorted (· ≤ ·))
    (hkb : kb.Sorted (· ≤ ·)) (c : Char)
    (hc : sort_letters (ka ++ [c]) = kb) :
    ∃ i, i < kb.length ∧ sort_letters (kb.eraseIdx i) = ka := by
  have hperm : kb.Perm (c :: ka) := by
    rw [← hc]
    exact (sort_letters_perm _).trans (List.perm_append_singleton c ka)
  have hcmem : c ∈ kb := hperm.mem_iff.2 (List.mem_cons_self c ka)
  obtain ⟨pre, suf, hsplit⟩ := List.append_of_mem hcmem
  refine ⟨pre.length, ?_, ?_⟩
  · rw [hsplit, List.length_append, List.length_cons]
    omega
  · have herase : kb.eraseIdx pre.length = pre ++ suf := by
      rw [hsplit]
      exact eraseIdx_append_cons pre suf c
    have hsorted : (kb.eraseIdx pre.length).Sorted (· ≤ ·) :=
      List.Pairwise.sublist (List.eraseIdx_sublist kb pre.length) hkb
    have hperm2 : (kb.eraseIdx pre.length).Perm ka := by
      rw [herase]
      have hmid : (pre ++ c :: suf).Perm (c :: (pre ++ suf)) := List.perm_middle
      have : (c :: (pre ++ suf)).Perm (c :: ka) :=
        (hmid.symm.trans (hsplit ▸ hperm))
      exact this.cons_inv
    rw [sort_letters_eq_self hsorted]
    exact List.eq_of_perm_of_sorted hperm2 hsorted hka

/-- Inserting the deleted letter back into a sorted key undoes a sorted
deletion: if `ka` is the sorted result of deleting position `i` of the
sorted key `kb`, then adding back the letter `kb[i]` re-sorts to `kb`. -/
theorem probes_delete_to_insert {ka kb : Word} (_hka : ka.Sorted (· ≤ ·))
    (hkb : kb.Sorted (· ≤ ·)) (i : Nat) (hi : i < kb.length)
    (hdel : sort_letters (kb.eraseIdx i) = ka) :
    ∃ c ∈ kb, sort_letters (ka ++ [c]) = kb := by
  refine ⟨kb[i], List.getElem_mem hi, ?_⟩
  have hsor : (kb.eraseIdx i).Sorted (· ≤ ·) :=
    List.Pairwise.sublist (List.eraseIdx_sublist kb i) hkb
  have hka2 : ka = kb.eraseIdx i := by
    rw [← hdel, sort_letters_eq_self hsor]
  have hperm : (ka ++ [kb[i]]).Perm kb := by
    rw [hka2, List.eraseIdx_eq_take_drop_succ]
    have h1 : ((List.take i kb ++ List.drop (i + 1) kb) ++ [kb[i]]).Perm
        (kb[i] :: (List.take i kb ++ List.drop (i + 1) kb)) :=
      List.perm_append_singleton _ _
    have h2 : (List.take i kb ++ kb[i] :: List.drop (i + 1) kb).Perm
        (kb[i] :: (List.take i kb ++ List.drop (i + 1) kb)) :=
      List.perm_middle
    have h3 : List.take i kb ++ kb[i] :: List.drop (i + 1) kb = kb := by
      rw [← List.drop_eq_getElem_cons hi, List.take_append_drop]
    have h4 := h2.symm
    rw [h3] at h4
    exact h1.trans h4
  exact List.eq_of_perm_of_sorted ((sort_letters_perm _).trans hperm)
    (sort_letters_sorted _) hkb

/-- C2: for a dictionary whose words are made of ASCII letters (the spec's
data model: words are lower-cased strings of letters), the neighbor relation
computed by `precompute` is symmetric over valid word ids. -/
theorem neighbors_symm (dict : List Word)
    (hlet : ∀ w ∈ dict, ∀ c ∈ w, c ∈ ascii_letters) (i j : Nat)
    (hi : i < dict.length) (hj : j < dict.length) :
    j ∈ neighbors dict i ↔ i ∈ neighbors dict j := by
  suffices h : ∀ a b : Nat, a < dict.length → b < dict.length →
      b ∈ neighbors dict a → a ∈ neighbors dict b from
    ⟨fun hm => h i j hi hj hm, fun hm => h j i hj hi hm⟩
  intro a b ha hb hmem
  obtain ⟨-, hp⟩ := mem_neighbors.1 hmem
  refine mem_neighbors.2 ⟨ha, ?_⟩
  have hka : (wordKey dict a).Sorted (· ≤ ·) := wordKey_sorted dict a
  have hkb : (wordKey dict b).Sorted (· ≤ ·) := wordKey_sorted dict b
  rcases mem_probes.1 hp with ⟨c, -, hc⟩ | ⟨idx, hidx, hdel⟩
  · obtain ⟨idx, hlt, heq⟩ := probes_insert_to_delete hka hkb c hc
    exact mem_probes.2 (Or.inr ⟨idx, hlt, heq⟩)
  · obtain ⟨c, hckb, hins⟩ := probes_delete_to_insert hkb hka idx hidx hdel
    refine mem_probes.2 (Or.inl ⟨c, ?_, hins⟩)
    have hwa : wordKey dict a = sort_letters dict[a] := by
      unfold wordKey
      rw [List.getD_eq_getElem dict [] ha]
    have hcword : c ∈ dict[a] := by
      rw [hwa] at hckb
      exact (sort_letters_perm dict[a]).mem_iff.1 hckb
    exact hlet dict[a] (List.getElem_mem ha) c hcword

/-- Witness for C2: "ab" and "abc" are mutual neighbors in the dictionary
["ab", "abc"]. -/
theorem neighbors_symm_witness :
    (1 ∈ neighbors [("ab").toList, ("abc").toList] 0 ↔
      0 ∈ neighbors [("ab").toList, ("abc").toList] 1) ∧
      0 ∈ neighbors [("ab").toList, ("abc").toList] 1 :=
  ⟨neighbors_symm _ (by decide) 0 1 (by decide) (by decide),
    (neighbors_symm _ (by decide) 0 1 (by decide) (by decide)).1 (by decide)⟩

theorem pathLen_zero {g : Nat → List Nat} {s u : Nat}
    (h : PathLen g s u 0) : u = s := by
  cases h
  rfl

theorem isDist_unique {g : Nat → List Nat} {s u m n : Nat}
    (h1 : IsDist g s u m) (h2 : IsDist g s u n) : m = n :=
  Nat.le_antisymm (h1.2 n h2.1) (h2.2 m h1.1)

theorem exists_isDist {g : Nat → List Nat} {s u : Nat} (h : Reach g s u) :
    ∃ n, IsDist g s u n := by
  classical
  obtain ⟨n, hn⟩ := h
  have hex : ∃ m, PathLen g s u m := ⟨n, hn⟩
  exact ⟨Nat.find hex, Nat.find_spec hex, fun m hm => Nat.find_le hm⟩

theorem isDist_self (g : Nat → List Nat) (s : Nat) : IsDist g s s 0 :=
  ⟨PathLen.base, fun m _ => Nat.zero_le m⟩

theorem isDist_pred {g : Nat → List Nat} {s u n : Nat}
    (h : IsDist g s u (n + 1)) : ∃ x, IsDist g s x n ∧ u ∈ g x := by
  obtain ⟨hp, hmin⟩ := h
  cases hp with
  | step hx hedge =>
    refine ⟨_, ⟨hx, ?_⟩, hedge⟩
    intro m hm
    have := hmin (m + 1) (hm.step hedge)
    omega

/-- The parent chain recorded in `came_from`: a path of `n` edges from `s`
whose nodes are all discovered (members of `d`) and whose links agree with
the parent map `p`. -/
inductive ParentChain (g : Nat → List Nat) (p : Nat → Option Nat)
    (d : List Nat) (s : Nat) : Nat → Nat → Prop
  | base (h : s ∈ d) : ParentChain g p d s s 0
  | step {v u n} : ParentChain g p d s v n → u ∈ d → u ≠ s →
      p u = some v → u ∈ g v → ParentChain g p d s u (n + 1)

theorem ParentChain.mono_d {g : Nat → List Nat} {p : Nat → Option Nat}
    {d d' : List Nat} {s u n : Nat} (hsub : ∀ x ∈ d, x ∈ d')
    (h : ParentChain g p d s u n) : ParentChain g p d' s u n := by
  induction h with
  | base h => exact .base (hsub _ h)
  | step _ hd hne hp he ih => exact .step ih (hsub _ hd) hne hp he

theorem ParentChain.update {g : Nat → List Nat} {p : Nat → Option Nat}
    {d : List Nat} {s u n x : Nat} {w : Nat} (hx : x ∉ d)
    (h : ParentChain g p d s u n) :
    ParentChain g (fun y => if y = x then some w else p y) d s u n := by
  induction h with
  | base h => exact .base h
  | step _ hd hne hp he ih =>
    refine .step ih hd hne ?_ he
    have hux : _ ≠ x := fun heq => hx (heq ▸ hd)
    simp only [hux, if_false]
    exact hp

/-- Whatever list `generate_path` returns along a recorded parent chain has
the right endpoints, the right length, and consecutive entries joined by
graph edges. -/
theorem generate_path_of_chain {g : Nat → List Nat} {p : Nat → Option Nat}
    {d : List Nat} {s u n : Nat} (h : ParentChain g p d s u n) :
    ∀ fuel l, generate_path p s fuel u = some l →
      l.head? = some s ∧ l.getLast? = some u ∧ l.length = n + 1 ∧
        List.Chain' (fun a b => b ∈ g a) l := by
  induction h with
  | base _ =>
    intro fuel l hgen
    cases fuel with
    | zero => cases hgen
    | succ f =>
      unfold generate_path at hgen
      rw [if_pos rfl] at hgen
      cases hgen
      exact ⟨rfl, rfl, rfl, List.chain'_singleton _⟩
  | @step v u m _ hd hne hp he ih =>
    intro fuel l hgen
    cases fuel with
    | zero => cases hgen
    | succ f =>
      unfold generate_path at hgen
      rw [if_neg hne, hp] at hgen
      have hgen2 : (generate_path p s f v).map (fun l => l ++ [u]) = some l :=
        hgen
      cases hl2 : generate_path p s f v with
      | none => rw [hl2] at hgen2; cases hgen2
      | some l2 =>
        rw [hl2] at hgen2
        cases hgen2
        obtain ⟨hh, hlast, hlen, hch⟩ := ih f l2 hl2
        have hl2ne : l2 ≠ [] := by
          intro heq
          rw [heq] at hlen
          cases hlen
        refine ⟨?_, ?_, ?_, ?_⟩
        · cases l2 with
          | nil => exact absurd rfl hl2ne
          | cons a t2 => exact hh
        · rw [List.getLast?_concat]
        · rw [List.length_append, hlen, List.length_singleton]
        · rw [List.chain'_append]
          refine ⟨hch, List.chain'_singleton _, ?_⟩
          intro x hx y hy
          rw [hlast] at hx
          cases hx
          cases hy
          exact he

/-- The BFS loop invariant for `compute`: the queue splits into a
distance-`D` front segment and a distance-`D+1` back segment, every
discovered node carries a parent chain realizing its exact distance, fully
scanned nodes have no goal neighbor and only discovered neighbors, and every
non-goal node strictly closer than `D` has been fully scanned. -/
structure BfsInv (g : Nat → List Nat) (s t : Nat) (q d : List Nat)
    (p : Nat → Option Nat) (D : Nat) (qa qb : List Nat) : Prop where
  hsplit : q = qa ++ qb
  hqa : ∀ u ∈ qa, IsDist g s u D
  hqb : ∀ u ∈ qb, IsDist g s u (D + 1)
  hnodup : q.Nodup
  hqd : ∀ u ∈ q, u ∈ d
  hsd : s ∈ d
  htd : t ∉ d
  hchain : ∀ u ∈ d, ∃ n, ParentChain g p d s u n ∧ IsDist g s u n
  hscan : ∀ u ∈ d, u ∉ q → t ∉ g u ∧ ∀ v ∈ g u, v ∈ d
  hclose : ∀ u n, u ≠ t → IsDist g s u n → n < D → u ∈ d ∧ u ∉ q

/-- Mid-scan variant of the invariant while node `w` (at distance `D`) is
being expanded: `w` is already popped, the processed prefix of its neighbor
list is discovered and goal-free, and `ns` is the unprocessed suffix. -/
structure ScanInv (g : Nat → List Nat) (s t w : Nat) (ns : List Nat)
    (q d : List Nat) (p : Nat → Option Nat) (D : Nat) (qa qb : List Nat) :
    Prop where
  hsplit : q = qa ++ qb
  hqa : ∀ u ∈ qa, IsDist g s u D
  hqb : ∀ u ∈ qb, IsDist g s u (D + 1)
  hnodup : q.Nodup
  hqd : ∀ u ∈ q, u ∈ d
  hsd : s ∈ d
  htd : t ∉ d
  hwd : w ∈ d
  hwq : w ∉ q
  hwdist : IsDist g s w D
  hchain : ∀ u ∈ d, ∃ n, ParentChain g p d s u n ∧ IsDist g s u n
  hscan : ∀ u ∈ d, u ∉ q → u ≠ w → t ∉ g u ∧ ∀ v ∈ g u, v ∈ d
  hpre : ∃ pre, g w = pre ++ ns ∧ ∀ v ∈ pre, v ∈ d ∧ v ≠ t
  hclose : ∀ u n, u ≠ t → IsDist g s u n → n < D → u ∈ d ∧ u ∉ q

theorem bfsInv_t_far {g : Nat → List Nat} {s t : Nat} {q d : List Nat}
    {p : Nat → Option Nat} {D : Nat} {qa qb : List Nat}
    (inv : BfsInv g s t q d p D qa qb) (hst : s ≠ t) :
    ∀ n, IsDist g s t n → D < n := by
  intro n hn
  by_contra hlt
  push_neg at hlt
  match n, hn, hlt with
  | 0, hn, _ => exact hst (pathLen_zero hn.1).symm
  | n + 1, hn, hlt =>
    obtain ⟨x, hx, he⟩ := isDist_pred hn
    have hxt : x ≠ t := by
      intro heq
      rw [heq] at hx
      have := isDist_unique hx hn
      omega
    have hcl := inv.hclose x n hxt hx (by omega)
    exact (inv.hscan x hcl.1 hcl.2).1 he

theorem bfsInv_mem_d {g : Nat → List Nat} {s t : Nat} {q d : List Nat}
    {p : Nat → Option Nat} {D : Nat} {qa qb : List Nat}
    (inv : BfsInv g s t q d p D qa qb) (hst : s ≠ t) :
    ∀ u n, u ≠ t → IsDist g s u n → n ≤ D → u ∈ d := by
  intro u n hut hu hle
  match n, hu, hle with
  | 0, hu, _ =>
    rw [pathLen_zero hu.1]
    exact inv.hsd
  | n + 1, hu, hle =>
    obtain ⟨x, hx, he⟩ := isDist_pred hu
    have hxt : x ≠ t := by
      intro heq
      have := bfsInv_t_far inv hst n (heq ▸ hx)
      omega
    have hcl := inv.hclose x n hxt hx (by omega)
    exact ((inv.hscan x hcl.1 hcl.2).2) u he

theorem scanInv_t_far {g : Nat → List Nat} {s t w : Nat} {ns : List Nat}
    {q d : List Nat} {p : Nat → Option Nat} {D : Nat} {qa qb : List Nat}
    (inv : ScanInv g s t w ns q d p D qa qb) (hst : s ≠ t) :
    ∀ n, IsDist g s t n → D < n := by
  intro n hn
  by_contra hlt
  push_neg at hlt
  match n, hn, hlt with
  | 0, hn, _ => exact hst (pathLen_zero hn.1).symm
  | n + 1, hn, hlt =>
    obtain ⟨x, hx, he⟩ := isDist_pred hn
    have hxt : x ≠ t := by
      intro heq
      rw [heq] at hx
      have := isDist_unique hx hn
      omega
    have hxw : x ≠ w := by
      intro heq
      rw [heq] at hx
      have := isDist_unique hx inv.hwdist
      omega
    have hcl := inv.hclose x n hxt hx (by omega)
    exact (inv.hscan x hcl.1 hcl.2 hxw).1 he

theorem scanInv_mem_d {g : Nat → List Nat} {s t w : Nat} {ns : List Nat}
    {q d : List Nat} {p : Nat → Option Nat} {D : Nat} {qa qb : List Nat}
    (inv : ScanInv g s t w ns q d p D qa qb) (hst : s ≠ t) :
    ∀ u n, u ≠ t → IsDist g s u n → n ≤ D → u ∈ d := by
  intro u n hut hu hle
  match n, hu, hle with
  | 0, hu, _ =>
    rw [pathLen_zero hu.1]
    exact inv.hsd
  | n + 1, hu, hle =>
    obtain ⟨x, hx, he⟩ := isDist_pred hu
    have hxt : x ≠ t := by
      intro heq
      have := scanInv_t_far inv hst n (heq ▸ hx)
      omega
    have hxw : x ≠ w := by
      intro heq
      rw [heq] at hx
      have := isDist_unique hx inv.hwdist
      omega
    have hcl := inv.hclose x n hxt hx (by omega)
    exact ((inv.hscan x hcl.1 hcl.2 hxw).2) u he

/-- When the distance-`D` segment of the queue is exhausted, the whole queue
sits at distance `D+1` and the invariant re-reads with the frontier advanced
one level. -/
theorem bfsInv_shift {g : Nat → List Nat} {s t : Nat} {q d : List Nat}
    {p : Nat → Option Nat} {D : Nat} {qb : List Nat}
    (inv : BfsInv g s t q d p D [] qb) (hst : s ≠ t) :
    BfsInv g s t q d p (D + 1) qb [] := by
  have hq : q = qb := by
    have := inv.hsplit
    simpa using this
  refine ⟨by simp [hq], inv.hqb, fun u hu => absurd hu (List.not_mem_nil u),
    inv.hnodup, inv.hqd, inv.hsd, inv.htd, inv.hchain, inv.hscan, ?_⟩
  intro u n hut hu hlt
  rcases Nat.lt_or_ge n D with h | h
  · exact inv.hclose u n hut hu h
  · have hnD : n = D := by omega
    subst hnD
    refine ⟨bfsInv_mem_d inv hst u n hut hu le_rfl, ?_⟩
    intro hmem
    rw [hq] at hmem
    have := inv.hqb u hmem
    have := isDist_unique hu this
    omega

/-- What a finished neighbor scan guarantees: a `next` outcome restores the
loop invariant (with the same distance-`D` front segment), and a `found`
outcome yields a recorded parent chain to the goal of exactly its distance
`D + 1`. -/
def ScanConc (g : Nat → List Nat) (s t D : Nat) (qa : List Nat) :
    ScanOut → Prop
  | .next q2 d2 p2 => ∃ qb2, BfsInv g s t q2 d2 p2 D qa qb2
  | .found p2 => ∃ d2, ParentChain g p2 d2 s t (D + 1) ∧ IsDist g s t (D + 1)

theorem scan_correct (g : Nat → List Nat) (s t w : Nat) (hst : s ≠ t) :
    ∀ ns q d p D qa qb, ScanInv g s t w ns q d p D qa qb →
      ScanConc g s t D qa (scanNbrs t w ns q d p) := by
  intro ns
  induction ns with
  | nil =>
    intro q d p D qa qb inv
    show ScanConc g s t D qa (.next q d p)
    refine ⟨qb, inv.hsplit, inv.hqa, inv.hqb, inv.hnodup, inv.hqd, inv.hsd,
      inv.htd, inv.hchain, ?_, inv.hclose⟩
    intro u hud huq
    by_cases huw : u = w
    · subst huw
      obtain ⟨pre, hpre1, hpre2⟩ := inv.hpre
      rw [List.append_nil] at hpre1
      constructor
      · intro ht
        rw [hpre1] at ht
        exact (hpre2 t ht).2 rfl
      · intro v hv
        rw [hpre1] at hv
        exact (hpre2 v hv).1
    · exact inv.hscan u hud huq huw
  | cons n rest ih =>
    intro q d p D qa qb inv
    by_cases hnt : n = t
    · subst hnt
      simp only [scanNbrs, if_pos rfl]
      obtain ⟨nw, hcw, hdw⟩ := inv.hchain w inv.hwd
      have hnwD : nw = D := isDist_unique hdw inv.hwdist
      subst hnwD
      obtain ⟨pre, hpre1, -⟩ := inv.hpre
      have htg : n ∈ g w := by
        rw [hpre1]
        exact List.mem_append_right pre (List.mem_cons_self n rest)
      have hdist : IsDist g s n (nw + 1) := by
        refine ⟨inv.hwdist.1.step htg, ?_⟩
        intro m hm
        obtain ⟨n0, hn0⟩ := exists_isDist ⟨m, hm⟩
        have h1 := scanInv_t_far inv hst n0 hn0
        have h2 := hn0.2 m hm
        omega
      refine ⟨n :: d, ?_, hdist⟩
      have hchain2 : ParentChain g (fun x => if x = n then some w else p x)
          d s w nw := ParentChain.update inv.htd hcw
      refine ParentChain.step
        (hchain2.mono_d fun x hx => List.mem_cons_of_mem n hx)
        (List.mem_cons_self n d) (fun heq => hst heq.symm) (by simp) htg
    · simp only [scanNbrs, if_neg hnt]
      by_cases hnd : n ∈ d
      · rw [if_pos hnd]
        refine ih q d p D qa qb ?_
        obtain ⟨pre, hpre1, hpre2⟩ := inv.hpre
        refine ⟨inv.hsplit, inv.hqa, inv.hqb, inv.hnodup, inv.hqd, inv.hsd,
          inv.htd, inv.hwd, inv.hwq, inv.hwdist, inv.hchain, inv.hscan,
          ⟨pre ++ [n], by rw [hpre1, List.append_assoc]; rfl, ?_⟩, inv.hclose⟩
        intro v hv
        rcases List.mem_append.1 hv with h | h
        · exact hpre2 v h
        · cases List.mem_singleton.1 h
          exact ⟨hnd, hnt⟩
      · rw [if_neg hnd]
        obtain ⟨pre, hpre1, hpre2⟩ := inv.hpre
        have hng : n ∈ g w := by
          rw [hpre1]
          exact List.mem_append_right pre (List.mem_cons_self n rest)
        have hnq : n ∉ q := fun h => hnd (inv.hqd n h)
        have hns : n ≠ s := fun h => hnd (h ▸ inv.hsd)
        have hnw : n ≠ w := fun h => hnd (h ▸ inv.hwd)
        have hdn : IsDist g s n (D + 1) := by
          have hr : Reach g s n := ⟨D + 1, inv.hwdist.1.step hng⟩
          obtain ⟨m0, hm0⟩ := exists_isDist hr
          have hub : m0 ≤ D + 1 := hm0.2 _ (inv.hwdist.1.step hng)
          have hlb : ¬m0 ≤ D := fun hle =>
            hnd (scanInv_mem_d inv hst n m0 hnt hm0 hle)
          have hm0D : m0 = D + 1 := by omega
          rwa [hm0D] at hm0
        refine ih _ _ _ D qa (qb ++ [n]) ?_
        obtain ⟨nw, hcw, hdw⟩ := inv.hchain w inv.hwd
        have hnwD : nw = D := isDist_unique hdw inv.hwdist
        subst hnwD
        refine ⟨?_, inv.hqa, ?_, ?_, ?_, List.mem_cons_of_mem n inv.hsd, ?_,
          List.mem_cons_of_mem n inv.hwd, ?_, inv.hwdist, ?_, ?_, ?_, ?_⟩
        · rw [inv.hsplit, List.append_assoc]
        · intro u hu
          rcases List.mem_append.1 hu with h | h
          · exact inv.hqb u h
          · cases List.mem_singleton.1 h
            exact hdn
        · refine List.nodup_append.2 ⟨inv.hnodup, List.nodup_singleton n, ?_⟩
          intro a ha ha2
          cases List.mem_singleton.1 ha2
          exact hnq ha
        · intro u hu
          rcases List.mem_append.1 hu with h | h
          · exact List.mem_cons_of_mem n (inv.hqd u h)
          · cases List.mem_singleton.1 h
            exact List.mem_cons_self n d
        · intro h
          rcases List.mem_cons.1 h with h | h
          · exact hnt h.symm
          · exact inv.htd h
        · intro h
          rcases List.mem_append.1 h with h | h
          · exact inv.hwq h
          · exact hnw (List.mem_singleton.1 h).symm
        · intro u hu
          rcases List.mem_cons.1 hu with h | h
          · subst h
            refine ⟨nw + 1, ?_, hdn⟩
            have hchain2 : ParentChain g
                (fun x => if x = u then some w else p x) d s w nw :=
              ParentChain.update hnd hcw
            exact ParentChain.step
              (hchain2.mono_d fun x hx => List.mem_cons_of_mem u hx)
              (List.mem_cons_self u d) hns (by simp) hng
          · obtain ⟨m, hc, hdm⟩ := inv.hchain u h
            exact ⟨m, (ParentChain.update hnd hc).mono_d
              fun x hx => List.mem_cons_of_mem n hx, hdm⟩
        · intro u hu huq huw
          have hun : u ≠ n := by
            intro heq
            exact huq (heq ▸ List.mem_append_right q (List.mem_singleton.2 rfl))
          have hud : u ∈ d := by
            rcases List.mem_cons.1 hu with h | h
            · exact absurd h hun
            · exact h
          have huq2 : u ∉ q := fun h => huq (List.mem_append_left [n] h)
          obtain ⟨h1, h2⟩ := inv.hscan u hud huq2 huw
          exact ⟨h1, fun v hv => List.mem_cons_of_mem n (h2 v hv)⟩
        · refine ⟨pre ++ [n], by rw [hpre1, List.append_assoc]; rfl, ?_⟩
          intro v hv
          rcases List.mem_append.1 hv with h | h
          · exact ⟨List.mem_cons_of_mem n (hpre2 v h).1, (hpre2 v h).2⟩
          · cases List.mem_singleton.1 h
            exact ⟨List.mem_cons_self n d, hnt⟩
        · intro u n0 hut hu hlt
          obtain ⟨h1, h2⟩ := inv.hclose u n0 hut hu hlt
          refine ⟨List.mem_cons_of_mem n h1, ?_⟩
          intro h
          rcases List.mem_append.1 h with h | h
          · exact h2 h
          · exact hnd ((List.mem_singleton.1 h) ▸ h1)

/-- Popping the front of the queue turns the loop invariant into the
mid-scan invariant for the popped node with an empty processed prefix. -/
theorem bfsInv_pop {g : Nat → List Nat} {s t w : Nat} {rest d : List Nat}
    {p : Nat → Option Nat} {D : Nat} {qa2 qb : List Nat}
    (inv : BfsInv g s t (w :: rest) d p D (w :: qa2) qb) :
    ScanInv g s t w (g w) rest d p D qa2 qb := by
  have hrest : rest = qa2 ++ qb := by
    have h := inv.hsplit
    rw [List.cons_append] at h
    injection h
  have hnodup := List.nodup_cons.1 inv.hnodup
  refine ⟨hrest, fun u hu => inv.hqa u (List.mem_cons_of_mem w hu),
    inv.hqb, hnodup.2, fun u hu => inv.hqd u (List.mem_cons_of_mem w hu),
    inv.hsd, inv.htd, inv.hqd w (List.mem_cons_self w rest),
    hnodup.1, inv.hqa w (List.mem_cons_self w qa2),
    inv.hchain, ?_, ⟨[], rfl, by intro v hv; cases hv⟩, ?_⟩
  · intro u hud hur huw
    refine inv.hscan u hud ?_
    intro h
    rcases List.mem_cons.1 h with h | h
    · exact huw h
    · exact hur h
  · intro u n hut hu hlt
    obtain ⟨h1, h2⟩ := inv.hclose u n hut hu hlt
    exact ⟨h1, fun h => h2 (List.mem_cons_of_mem w h)⟩

/-- If `compute`'s BFS reports the goal found, the final parent map records
a chain from start to goal whose length is exactly the BFS distance. -/
theorem bfsLoop_found {g : Nat → List Nat} {s t steps : Nat} (hst : s ≠ t) :
    ∀ fuel q d p D qa qb, BfsInv g s t q d p D qa qb →
      ∀ p2, bfsLoop g t steps fuel q d p = .found p2 →
        ∃ d2 n, ParentChain g p2 d2 s t n ∧ IsDist g s t n := by
  intro fuel
  induction fuel with
  | zero =>
    intro q d p D qa qb inv p2 h
    cases q with
    | nil => cases h
    | cons w rest => cases h
  | succ f ih =>
    intro q d p D qa qb inv p2 h
    cases q with
    | nil => cases h
    | cons w rest =>
      by_cases hsteps : steps = 0
      · simp only [bfsLoop, if_pos hsteps] at h
        cases h
      · have hscaninv : ∃ D2 qa2 qb2,
            ScanInv g s t w (g w) rest d p D2 qa2 qb2 := by
          cases qa with
          | nil =>
            have hq : w :: rest = qb := by simpa using inv.hsplit
            have inv2 := bfsInv_shift inv hst
            rw [← hq] at inv2
            exact ⟨D + 1, rest, [], bfsInv_pop inv2⟩
          | cons w2 qa2 =>
            have hw2 : w2 = w := by
              have h2 := inv.hsplit
              rw [List.cons_append] at h2
              injection h2 with h3 h4
              exact h3.symm
            subst hw2
            exact ⟨D, qa2, qb, bfsInv_pop inv⟩
        obtain ⟨D2, qa2, qb2, sinv⟩ := hscaninv
        have hconc := scan_correct g s t w hst (g w) rest d p D2 qa2 qb2 sinv
        simp only [bfsLoop, if_neg hsteps] at h
        cases hres : scanNbrs t w (g w) rest d p with
        | next q2 d2 p3 =>
          rw [hres] at h hconc
          have h2 : bfsLoop g t steps f q2 d2 p3 = .found p2 := h
          obtain ⟨qb3, inv3⟩ := hconc
          exact ih q2 d2 p3 D2 qa2 qb3 inv3 p2 h2
        | found p3 =>
          rw [hres] at h hconc
          have h2 : BfsOut.found p3 = BfsOut.found p2 := h
          injection h2 with h3
          subst h3
          obtain ⟨d2, hc, hd⟩ := hconc
          exact ⟨d2, D2 + 1, hc, hd⟩

/-- The state `compute` builds before its loop satisfies the invariant. -/
theorem bfsInv_init (g : Nat → List Nat) (s t : Nat) (hst : s ≠ t) :
    BfsInv g s t [s] [s] (fun _ => none) 0 [s] [] := by
  refine ⟨rfl, ?_, ?_, List.nodup_singleton s, ?_,
    List.mem_singleton.2 rfl, ?_, ?_, ?_, ?_⟩
  · intro u hu
    cases List.mem_singleton.1 hu
    exact isDist_self g s
  · intro u hu
    cases hu
  · intro u hu
    exact hu
  · intro h
    exact hst (List.mem_singleton.1 h).symm
  · intro u hu
    cases List.mem_singleton.1 hu
    exact ⟨0, .base (List.mem_singleton.2 rfl), isDist_self g s⟩
  · intro u hu huq
    exact absurd hu huq
  · intro u n hut hu hlt
    omega

/-- C3: whenever `compute` writes out a path for distinct dictionary words,
the underlying id path starts at the start id, ends at the goal id, steps
only along neighbor-graph edges, and has the minimum possible number of
edges: any walk from start to goal has at least `length - 1` edges. -/
theorem compute_shortest_path (dict : List Word) (g : Nat → List Nat)
    (start goal : Word) (fuel : Nat) (hne : start ≠ goal) (wl : List Word)
    (hout : compute dict g start goal fuel = .output wl) :
    ∃ il s t, words_to_index dict start = some s ∧
      words_to_index dict goal = some t ∧
      wl = il.map (fun i => (index_to_word dict i).getD []) ∧
      il.head? = some s ∧ il.getLast? = some t ∧
      List.Chain' (fun a b => b ∈ g a) il ∧
      ∀ m, PathLen g s t m → il.length ≤ m + 1 := by
  unfold compute at hout
  split at hout
  next s t hs ht =>
    have hst : s ≠ t := by
      intro heq
      apply hne
      have h1 := words_to_index_getElem? hs
      have h2 := words_to_index_getElem? ht
      rw [heq, h2] at h1
      injection h1 with h3
      exact h3.symm
    split at hout
    next p hbfs =>
      split at hout
      next il hgen =>
        have hwl : wl = il.map fun i => (index_to_word dict i).getD [] := by
          injection hout with h
          exact h.symm
        obtain ⟨d2, n, hchain, hdist⟩ :=
          bfsLoop_found hst fuel [s] [s] (fun _ => none) 0 [s] []
            (bfsInv_init g s t hst) p hbfs
        obtain ⟨hh, hlast, hlen, hch⟩ :=
          generate_path_of_chain hchain fuel il hgen
        refine ⟨il, s, t, hs, ht, hwl, hh, hlast, hch, ?_⟩
        intro m hm
        have := hdist.2 m hm
        omega
      next hgen => cases hout
    next hbfs => cases hout
    next hbfs => cases hout
    next hbfs => cases hout
  next hx => cases hout

/-- Concrete two-word dictionary ("ab" and "abc", one insertion apart) used
by the shortest-path witnesses. -/
def pairDict : List Word := [("ab").toList, ("abc").toList]

/-- The n-th of 100 pairwise distinct three-letter words ('q', then a letter
from a–j, then a letter from n–w).  All have length 3 and distinct canonical
keys, so none is an insertion or deletion partner of another: every word of
`bigDict` is isolated in the neighbor graph.  With 100 distinct words and
100 buckets, both `compute`'s and `precompute`'s progress arithmetic runs
without dividing by zero on this dictionary. -/
def bigWord (n : Nat) : Word :=
  [Char.ofNat 113, Char.ofNat (97 + n / 10), Char.ofNat (110 + n % 10)]

/-- A 100-word dictionary of pairwise non-adjacent words. -/
def bigDict : List Word := (List.range 100).map bigWord

/-- `bigDict` extended with "qann", giving the word "qan" (id 0) exactly
one neighbor (id 100) while keeping at least 100 distinct words, so
`compute`'s progress arithmetic does not divide by zero. -/
def bigDict2 : List Word := bigDict ++ [("qann").toList]

/-- Witness for C6's amended statement: `precompute` completes on the
100-bucket dictionary `bigDict` and its records cover ids 0–99 exactly
once; the isolated word 0 gets the record of its (empty) neighbor set. -/
theorem precompute_records_complete_witness :
    ∃ records, precompute bigDict = some records ∧
      (records.map Prod.fst).Perm (List.range bigDict.length) ∧
      (0, neighbors bigDict 0) ∈ records := by
  have h : precompute bigDict =
      some ((bucketKeys bigDict).flatMap fun k =>
        (bucketIds bigDict k).map fun i => (i, neighbors bigDict i)) := by
    unfold precompute
    rw [if_neg (by decide)]
  exact ⟨_, h, (precompute_records_complete bigDict _ h).1,
    (precompute_records_complete bigDict _ h).2 0 (by decide)⟩

/-- Witness for C3: on the 101-word dictionary `bigDict2` (large enough for
the progress arithmetic to run without error) with its precomputed neighbor
graph, the query "qan" → "qann" outputs the two-word path, and the
theorem's conclusions hold for it. -/
theorem compute_shortest_path_witness :
    bigWord 0 ≠ ("qann").toList ∧
    compute bigDict2 (fun i => neighbors bigDict2 i) (bigWord 0)
        (("qann").toList) 4 =
      ComputeResult.output [bigWord 0, ("qann").toList] ∧
    ∃ il s t, words_to_index bigDict2 (bigWord 0) = some s ∧
      words_to_index bigDict2 (("qann").toList) = some t ∧
      ([bigWord 0, ("qann").toList] : List Word) =
        il.map (fun i => (index_to_word bigDict2 i).getD []) ∧
      il.head? = some s ∧ il.getLast? = some t ∧
      List.Chain' (fun a b => b ∈ (fun i => neighbors bigDict2 i) a) il ∧
      ∀ m, PathLen (fun i => neighbors bigDict2 i) s t m →
        il.length ≤ m + 1 :=
  ⟨by decide, by decide,
    compute_shortest_path bigDict2 (fun i => neighbors bigDict2 i)
      (bigWord 0) (("qann").toList) 4 (by decide)
      [bigWord 0, ("qann").toList] (by decide)⟩

/-- A scan whose neighbor list contains the goal reports `found`. -/
theorem scanNbrs_found {goal w : Nat} :
    ∀ ns q d p, goal ∈ ns → ∃ p2, scanNbrs goal w ns q d p = .found p2 := by
  intro ns
  induction ns with
  | nil =>
    intro q d p h
    cases h
  | cons n rest ih =>
    intro q d p h
    by_cases hng : n = goal
    · subst hng
      exact ⟨fun x => if x = n then some w else p x, by simp [scanNbrs]⟩
    · have hr : goal ∈ rest := by
        rcases List.mem_cons.1 h with h | h
        · exact absurd h.symm hng
        · exact h
      simp only [scanNbrs, if_neg hng]
      by_cases hnd : n ∈ d
      · rw [if_pos hnd]
        exact ih _ _ _ hr
      · rw [if_neg hnd]
        exact ih _ _ _ hr

/-- A scan that ends in `next` only appends to the queue, adds only scanned
neighbors, and accounts for every scanned neighbor: it is the goal, was
already visited, or is now queued. -/
theorem scanNbrs_next_sub {goal w : Nat} :
    ∀ ns q d p q2 d2 p2, scanNbrs goal w ns q d p = .next q2 d2 p2 →
      (∀ x ∈ q, x ∈ q2) ∧ (∀ x ∈ q2, x ∈ q ∨ x ∈ ns) ∧
        ∀ x ∈ ns, x = goal ∨ x ∈ d ∨ x ∈ q2 := by
  intro ns
  induction ns with
  | nil =>
    intro q d p q2 d2 p2 h
    injection h with h1 h2 h3
    subst h1
    exact ⟨fun x hx => hx, fun x hx => Or.inl hx,
      fun x hx => absurd hx (List.not_mem_nil x)⟩
  | cons n rest ih =>
    intro q d p q2 d2 p2 h
    by_cases hng : n = goal
    · subst hng
      simp [scanNbrs] at h
    · simp only [scanNbrs, if_neg hng] at h
      by_cases hnd : n ∈ d
      · rw [if_pos hnd] at h
        obtain ⟨h0, h1, h2⟩ := ih _ _ _ _ _ _ h
        refine ⟨h0, fun x hx => (h1 x hx).imp id (List.mem_cons_of_mem n), ?_⟩
        intro x hx
        rcases List.mem_cons.1 hx with heq | hx2
        · subst heq
          exact Or.inr (Or.inl hnd)
        · exact h2 x hx2
      · rw [if_neg hnd] at h
        obtain ⟨h0, h1, h2⟩ := ih _ _ _ _ _ _ h
        refine ⟨?_, ?_, ?_⟩
        · intro x hx
          exact h0 x (List.mem_append_left [n] hx)
        · intro x hx
          rcases h1 x hx with hx2 | hx2
          · rcases List.mem_append.1 hx2 with h3 | h3
            · exact Or.inl h3
            · cases List.mem_singleton.1 h3
              exact Or.inr (List.mem_cons_self n rest)
          · exact Or.inr (List.mem_cons_of_mem n hx2)
        · intro x hx
          rcases List.mem_cons.1 hx with heq | hx2
          · subst heq
            exact Or.inr (Or.inr
              (h0 x (List.mem_append_right q (List.mem_singleton.2 rfl))))
          · rcases h2 x hx2 with h3 | h3 | h3
            · exact Or.inl h3
            · rcases List.mem_cons.1 h3 with h4 | h4
              · subst h4
                exact Or.inr (Or.inr
                  (h0 x (List.mem_append_right q (List.mem_singleton.2 rfl))))
              · exact Or.inr (Or.inl h4)
            · exact Or.inr (Or.inr h3)

/-- `compute` in the successful case, assembled from its pieces. -/
theorem compute_of_found {dict : List Word} {g : Nat → List Nat}
    {start goal : Word} {fuel s t : Nat} {p : Nat → Option Nat}
    {l : List Nat} (hs : words_to_index dict start = some s)
    (ht : words_to_index dict goal = some t)
    (hbfs : bfsLoop g t (output_steps dict) fuel [s] [s] (fun _ => none) =
      .found p)
    (hgen : generate_path p s fuel t = some l) :
    compute dict g start goal fuel =
      .output (l.map fun i => (index_to_word dict i).getD []) := by
  unfold compute
  simp only [hs, ht, hbfs, hgen]

/-- C1 amended: if the start word equals the goal word, is present in a
dictionary with at least 100 distinct words (so that `output_steps` is
positive and the progress check does not divide by zero and crash the
query), and has at least one neighbor whose neighbor set in turn contains
it (which the symmetry of the precomputed graph guarantees), then `compute`
outputs exactly the one-word path.  The goal is only ever detected while
scanning a neighbor list, so the search needs the word to be reachable as
someone's neighbor; an isolated word instead exhausts the queue and reports
no path (see the counterexample). -/
theorem compute_start_eq_goal (dict : List Word) (g : Nat → List Nat)
    (start : Word) (s : Nat) (fuel : Nat)
    (hs : words_to_index dict start = some s)
    (hsteps : output_steps dict ≠ 0)
    (hne : g s ≠ []) (hsym : ∀ u ∈ g s, s ∈ g u) (hfuel : 2 ≤ fuel) :
    compute dict g start start fuel = .output [start] := by
  obtain ⟨f, rfl⟩ : ∃ f, fuel = f + 2 := ⟨fuel - 2, by omega⟩
  have hi2w : index_to_word dict s = some start := by
    rw [index_to_word_eq_getElem?]
    exact words_to_index_getElem? hs
  have hmap : ([s].map fun i => (index_to_word dict i).getD []) = [start] := by
    simp [hi2w]
  have hgen : ∀ p : Nat → Option Nat,
      generate_path p s (f + 2) s = some [s] := by
    intro p
    show generate_path p s (f + 1 + 1) s = some [s]
    unfold generate_path
    rw [if_pos rfl]
  cases hres : scanNbrs s s (g s) [] [s] (fun _ => none) with
  | found p2 =>
    have hbfs : bfsLoop g s (output_steps dict) (f + 2) [s] [s]
        (fun _ => none) = .found p2 := by
      show bfsLoop g s (output_steps dict) (f + 1 + 1) [s] [s]
        (fun _ => none) = .found p2
      simp only [bfsLoop, if_neg hsteps, hres]
    rw [compute_of_found hs hs hbfs (hgen p2), hmap]
  | next q2 d2 p2 =>
    have hnotin : s ∉ g s := by
      intro hmem
      obtain ⟨p3, hp3⟩ := scanNbrs_found (g s) [] [s] (fun _ => none) hmem
      rw [hres] at hp3
      cases hp3
    obtain ⟨hgrow, hsub, hcover⟩ := scanNbrs_next_sub _ _ _ _ _ _ _ hres
    cases hq2 : q2 with
    | nil =>
      obtain ⟨x, hx⟩ := List.exists_mem_of_ne_nil (g s) hne
      rcases hcover x hx with h | h | h
      · exact absurd (h ▸ hx) hnotin
      · cases List.mem_singleton.1 h
        exact absurd hx hnotin
      · rw [hq2] at h
        cases h
    | cons w0 rest2 =>
      have hw0g : w0 ∈ g s := by
        have hw0 : w0 ∈ q2 := by
          rw [hq2]
          exact List.mem_cons_self w0 rest2
        rcases hsub w0 hw0 with h | h
        · cases h
        · exact h
      obtain ⟨p3, hp3⟩ :=
        @scanNbrs_found s w0 (g w0) rest2 d2 p2 (hsym w0 hw0g)
      have hbfs : bfsLoop g s (output_steps dict) (f + 2) [s] [s]
          (fun _ => none) = .found p3 := by
        show bfsLoop g s (output_steps dict) (f + 1 + 1) [s] [s]
          (fun _ => none) = .found p3
        simp only [bfsLoop, if_neg hsteps, hres, hq2, hp3]
      rw [compute_of_found hs hs hbfs (hgen p3), hmap]

/-- Witness for C1's amended statement: "qan" → "qan" in the 101-word
dictionary `bigDict2` (where "qan" has the neighbor "qann") outputs the
one-word path. -/
theorem compute_start_eq_goal_witness :
    compute bigDict2 (fun i => neighbors bigDict2 i) (bigWord 0)
      (bigWord 0) 2 = ComputeResult.output [bigWord 0] :=
  compute_start_eq_goal bigDict2 (fun i => neighbors bigDict2 i)
    (bigWord 0) 0 2 (by decide) (by decide) (by decide) (by decide)
    (by omega)

/-- C1 counterexample: the word "qan" is present in `bigDict` but isolated,
and the query "qan" → "qan" (start equals goal) reports no path and writes
an empty output file instead of the claimed one-word path: the goal is only
ever detected as a neighbor of an expanded node, and an isolated word is
nobody's neighbor — not even its own. -/
theorem compute_start_eq_goal_counterexample :
    (words_to_index bigDict (bigWord 0)).isSome = true ∧
      neighbors bigDict 0 = [] ∧
      compute bigDict (fun i => neighbors bigDict i) (bigWord 0) (bigWord 0)
        5 = ComputeResult.empty := by
  refine ⟨by decide, by decide, by decide⟩

/-- C10: for a dictionary word with no neighbors (its component has
eccentricity zero), the per-source BFS records only depth 0, the
`steps_to[word] > max_length` update never fires (0 > 0 is false), and the
run ends with `max_start` still `None`, so the final
`INDEX_TO_WORD[max_start]` lookup raises a `KeyError` (`some none` in the
embedding) instead of reporting a result. -/
theorem find_longest_path_isolated (g : Nat → List Nat) (w : Nat)
    (hiso : g w = []) (fuel : Nat) (hfuel : 1 ≤ fuel) :
    find_longest_path g w fuel = some none := by
  obtain ⟨f, rfl⟩ : ∃ f, fuel = f + 1 := ⟨fuel - 1, by omega⟩
  have hgrp : find_words_in_group g w (f + 1) = some [w] := by
    unfold find_words_in_group
    simp only [groupLoop, hiso, groupScan]
  unfold find_longest_path
  rw [hgrp]
  have hecc : eccRun g w (f + 1) =
      some (w, fun x => if x = w then some 0 else none) := by
    unfold eccRun
    simp [eccLoop, hiso, eccScan]
  simp [flpFold, hecc]

/-- Witness for C10: a graph where node 0 is isolated. -/
theorem find_longest_path_isolated_witness :
    find_longest_path (fun _ => []) 0 1 = some none :=
  find_longest_path_isolated (fun _ => []) 0 rfl 1 (by omega)

/-- Bookkeeping facts about one neighbor scan of the flood fill: the queue
only grows, the result set only grows, new members come from the scanned
list, every scanned node ends up in the result set, the queue stays inside
the result set, and every scanned node is already known or now queued. -/
theorem groupScan_spec :
    ∀ ns q res q2 res2, groupScan ns q res = (q2, res2) →
      (∀ x ∈ q, x ∈ q2) ∧ (∀ x ∈ res, x ∈ res2) ∧
      (∀ x ∈ res2, x ∈ res ∨ x ∈ ns) ∧ (∀ x ∈ ns, x ∈ res2) ∧
      ((∀ x ∈ q, x ∈ res) → ∀ x ∈ q2, x ∈ res2) ∧
      (∀ x ∈ ns, x ∈ res ∨ x ∈ q2) := by
  intro ns
  induction ns with
  | nil =>
    intro q res q2 res2 h
    injection h with h1 h2
    subst h1
    subst h2
    exact ⟨fun x hx => hx, fun x hx => hx, fun x hx => Or.inl hx,
      fun x hx => absurd hx (List.not_mem_nil x), fun h x hx => h x hx,
      fun x hx => absurd hx (List.not_mem_nil x)⟩
  | cons n rest ih =>
    intro q res q2 res2 h
    simp only [groupScan] at h
    by_cases hn : n ∈ res
    · rw [if_pos hn] at h
      obtain ⟨h1, h2, h3, h4, h5, h6⟩ := ih _ _ _ _ h
      refine ⟨h1, h2, ?_, ?_, h5, ?_⟩
      · intro x hx
        exact (h3 x hx).imp id (List.mem_cons_of_mem n)
      · intro x hx
        rcases List.mem_cons.1 hx with heq | hx2
        · subst heq
          exact h2 x hn
        · exact h4 x hx2
      · intro x hx
        rcases List.mem_cons.1 hx with heq | hx2
        · subst heq
          exact Or.inl hn
        · exact h6 x hx2
    · rw [if_neg hn] at h
      obtain ⟨h1, h2, h3, h4, h5, h6⟩ := ih _ _ _ _ h
      have hnq2 : n ∈ q2 :=
        h1 n (List.mem_append_right q (List.mem_singleton.2 rfl))
      have hnres2 : n ∈ res2 := h2 n (List.mem_cons_self n res)
      refine ⟨?_, ?_, ?_, ?_, ?_, ?_⟩
      · intro x hx
        exact h1 x (List.mem_append_left [n] hx)
      · intro x hx
        exact h2 x (List.mem_cons_of_mem n hx)
      · intro x hx
        rcases h3 x hx with hx2 | hx2
        · rcases List.mem_cons.1 hx2 with heq | hx3
          · subst heq
            exact Or.inr (List.mem_cons_self x rest)
          · exact Or.inl hx3
        · exact Or.inr (List.mem_cons_of_mem n hx2)
      · intro x hx
        rcases List.mem_cons.1 hx with heq | hx2
        · subst heq
          exact hnres2
        · exact h4 x hx2
      · intro hq x hx
        refine h5 ?_ x hx
        intro y hy
        rcases List.mem_append.1 hy with hy2 | hy2
        · exact List.mem_cons_of_mem n (hq y hy2)
        · cases List.mem_singleton.1 hy2
          exact List.mem_cons_self n res
      · intro x hx
        rcases List.mem_cons.1 hx with heq | hx2
        · subst heq
          exact Or.inr hnq2
        · rcases h6 x hx2 with h7 | h7
          · rcases List.mem_cons.1 h7 with heq | h8
            · subst heq
              exact Or.inr hnq2
            · exact Or.inl h8
          · exact Or.inr h7

/-- A set containing the source and closed under neighbor edges contains
everything reachable from the source. -/
theorem reach_mem_closed {g : Nat → List Nat} {d : List Nat} {s : Nat}
    (hs : s ∈ d) (hclosed : ∀ u ∈ d, ∀ v ∈ g u, v ∈ d) {u n : Nat}
    (h : PathLen g s u n) : u ∈ d := by
  induction h with
  | base => exact hs
  | step _ he ih => exact hclosed _ ih _ he

/-- The flood-fill loop of `find_words_in_group` computes exactly the set of
nodes reachable from the start word. -/
theorem groupLoop_correct (g : Nat → List Nat) (w : Nat) :
    ∀ fuel q res, (∀ u ∈ q, u ∈ res) → (∀ u ∈ res, Reach g w u) →
      (∀ u ∈ res, u ∉ q → ∀ v ∈ g u, v ∈ res) → w ∈ res →
      ∀ l, groupLoop g fuel q res = some l →
        ∀ u, u ∈ l ↔ Reach g w u := by
  intro fuel
  induction fuel with
  | zero =>
    intro q res hqr hreach hclosed hw l h
    cases q with
    | nil =>
      injection h with h2
      subst h2
      intro u
      refine ⟨fun hu => hreach u hu, fun hu => ?_⟩
      obtain ⟨n, hn⟩ := hu
      exact reach_mem_closed hw (fun x hx => hclosed x hx (List.not_mem_nil x)) hn
    | cons u0 rest => cases h
  | succ f ih =>
    intro q res hqr hreach hclosed hw l h
    cases q with
    | nil =>
      injection h with h2
      subst h2
      intro u
      refine ⟨fun hu => hreach u hu, fun hu => ?_⟩
      obtain ⟨n, hn⟩ := hu
      exact reach_mem_closed hw (fun x hx => hclosed x hx (List.not_mem_nil x)) hn
    | cons u0 rest =>
      have h2 : groupLoop g f (groupScan (g u0) rest res).1
          (groupScan (g u0) rest res).2 = some l := h
      cases hgs : groupScan (g u0) rest res with
      | mk q2 res2 =>
        rw [hgs] at h2
        obtain ⟨h3, h4, h5, h6, h7, h8⟩ := groupScan_spec _ _ _ _ _ hgs
        have hu0res : u0 ∈ res := hqr u0 (List.mem_cons_self u0 rest)
        refine ih q2 res2 ?_ ?_ ?_ (h4 w hw) l h2
        · exact h7 fun x hx => hqr x (List.mem_cons_of_mem u0 hx)
        · intro u hu
          rcases h5 u hu with h9 | h9
          · exact hreach u h9
          · obtain ⟨n, hn⟩ := hreach u0 hu0res
            exact ⟨n + 1, hn.step h9⟩
        · intro u hu huq v hv
          rcases h5 u hu with h9 | h9
          · by_cases huu0 : u = u0
            · subst huu0
              exact h6 v hv
            · have hurest : u ∉ rest := fun hr => huq (h3 u hr)
              have : u ∉ u0 :: rest := by
                intro hm
                rcases List.mem_cons.1 hm with heq | hm2
                · exact huu0 heq
                · exact hurest hm2
              exact h4 v (hclosed u h9 this v hv)
          · rcases h8 u h9 with h10 | h10
            · by_cases huu0 : u = u0
              · subst huu0
                exact h6 v hv
              · have hurest : u ∉ rest := fun hr => huq (h3 u hr)
                have : u ∉ u0 :: rest := by
                  intro hm
                  rcases List.mem_cons.1 hm with heq | hm2
                  · exact huu0 heq
                  · exact hurest hm2
                exact h4 v (hclosed u h10 this v hv)
            · exact absurd h10 huq

/-- `find_words_in_group` returns exactly the component (the reachable set)
of the start word. -/
theorem find_words_in_group_correct {g : Nat → List Nat} {w fuel : Nat}
    {l : List Nat} (h : find_words_in_group g w fuel = some l) :
    ∀ u, u ∈ l ↔ Reach g w u := by
  refine groupLoop_correct g w fuel [w] [w] (fun u hu => hu) ?_ ?_
    (List.mem_singleton.2 rfl) l h
  · intro u hu
    cases List.mem_singleton.1 hu
    exact ⟨0, PathLen.base⟩
  · intro u hu huq
    exact absurd hu huq

/-- Loop invariant for the per-source BFS of `find_longest_path`: queue
split into depth-`D` and depth-`D+1` segments, `steps_to` records exactly
the BFS distance of every discovered node, all recorded depths are at most
`D+1` and the `D+1`-deep nodes are still queued, scanned nodes have only
discovered neighbors, and all strictly closer nodes are fully scanned. -/
structure EccInv (g : Nat → List Nat) (s : Nat) (q d : List Nat)
    (st : Nat → Option Nat) (D : Nat) (qa qb : List Nat) : Prop where
  hsplit : q = qa ++ qb
  hqa : ∀ u ∈ qa, st u = some D ∧ IsDist g s u D
  hqb : ∀ u ∈ qb, st u = some (D + 1) ∧ IsDist g s u (D + 1)
  hnodup : q.Nodup
  hqd : ∀ u ∈ q, u ∈ d
  hsd : s ∈ d
  hrec : ∀ u ∈ d, ∃ k, st u = some k ∧ IsDist g s u k
  hdom : ∀ u k, st u = some k → u ∈ d
  hcap : ∀ u k, st u = some k → k ≤ D + 1
  hhi : ∀ u, st u = some (D + 1) → u ∈ qb
  hscan : ∀ u ∈ d, u ∉ q → ∀ v ∈ g u, v ∈ d
  hclose : ∀ u n, IsDist g s u n → n < D → u ∈ d ∧ u ∉ q

/-- Mid-scan variant of `EccInv` while node `w` (at depth `D`) is being
expanded. -/
structure EccScanInv (g : Nat → List Nat) (s w : Nat) (ns : List Nat)
    (q d : List Nat) (st : Nat → Option Nat) (D : Nat) (qa qb : List Nat) :
    Prop where
  hsplit : q = qa ++ qb
  hqa : ∀ u ∈ qa, st u = some D ∧ IsDist g s u D
  hqb : ∀ u ∈ qb, st u = some (D + 1) ∧ IsDist g s u (D + 1)
  hnodup : q.Nodup
  hqd : ∀ u ∈ q, u ∈ d
  hsd : s ∈ d
  hwd : w ∈ d
  hwq : w ∉ q
  hwdist : IsDist g s w D
  hrec : ∀ u ∈ d, ∃ k, st u = some k ∧ IsDist g s u k
  hdom : ∀ u k, st u = some k → u ∈ d
  hcap : ∀ u k, st u = some k → k ≤ D + 1
  hhi : ∀ u, st u = some (D + 1) → u ∈ qb
  hscan : ∀ u ∈ d, u ∉ q → u ≠ w → ∀ v ∈ g u, v ∈ d
  hpre : ∃ pre, g w = pre ++ ns ∧ ∀ v ∈ pre, v ∈ d
  hclose : ∀ u n, IsDist g s u n → n < D → u ∈ d ∧ u ∉ q

theorem eccScanInv_mem_d {g : Nat → List Nat} {s w : Nat} {ns : List Nat}
    {q d : List Nat} {st : Nat → Option Nat} {D : Nat} {qa qb : List Nat}
    (inv : EccScanInv g s w ns q d st D qa qb) :
    ∀ u n, IsDist g s u n → n ≤ D → u ∈ d := by
  intro u n hu hle
  match n, hu, hle with
  | 0, hu, _ =>
    rw [pathLen_zero hu.1]
    exact inv.hsd
  | n + 1, hu, hle =>
    obtain ⟨x, hx, he⟩ := isDist_pred hu
    have hxw : x ≠ w := by
      intro heq
      rw [heq] at hx
      have := isDist_unique hx inv.hwdist
      omega
    have hcl := inv.hclose x n hx (by omega)
    exact inv.hscan x hcl.1 hcl.2 hxw u he

theorem eccInv_mem_d {g : Nat → List Nat} {s : Nat} {q d : List Nat}
    {st : Nat → Option Nat} {D : Nat} {qa qb : List Nat}
    (inv : EccInv g s q d st D qa qb) :
    ∀ u n, IsDist g s u n → n ≤ D → u ∈ d := by
  intro u n hu hle
  match n, hu, hle with
  | 0, hu, _ =>
    rw [pathLen_zero hu.1]
    exact inv.hsd
  | n + 1, hu, hle =>
    obtain ⟨x, hx, he⟩ := isDist_pred hu
    have hcl := inv.hclose x n hx (by omega)
    exact inv.hscan x hcl.1 hcl.2 u he

/-- Advancing the frontier level when the depth-`D` queue segment is
exhausted. -/
theorem eccInv_shift {g : Nat → List Nat} {s : Nat} {q d : List Nat}
    {st : Nat → Option Nat} {D : Nat} {qb : List Nat}
    (inv : EccInv g s q d st D [] qb) :
    EccInv g s q d st (D + 1) qb [] := by
  have hq : q = qb := by simpa using inv.hsplit
  refine ⟨by simp [hq], inv.hqb, fun u hu => absurd hu (List.not_mem_nil u),
    inv.hnodup, inv.hqd, inv.hsd, inv.hrec, inv.hdom, ?_, ?_, inv.hscan, ?_⟩
  · intro u k hk
    have := inv.hcap u k hk
    omega
  · intro u hk
    have := inv.hcap u _ hk
    omega
  · intro u n hu hlt
    rcases Nat.lt_or_ge n D with h | h
    · exact inv.hclose u n hu h
    · have hnD : n = D := by omega
      subst hnD
      refine ⟨eccInv_mem_d inv u n hu le_rfl, ?_⟩
      intro hmem
      rw [hq] at hmem
      have := (inv.hqb u hmem).2
      have := isDist_unique hu this
      omega

/-- Popping the front of the queue in the per-source BFS. -/
theorem eccInv_pop {g : Nat → List Nat} {s w : Nat} {rest d : List Nat}
    {st : Nat → Option Nat} {D : Nat} {qa2 qb : List Nat}
    (inv : EccInv g s (w :: rest) d st D (w :: qa2) qb) :
    EccScanInv g s w (g w) rest d st D qa2 qb := by
  have hrest : rest = qa2 ++ qb := by
    have h := inv.hsplit
    rw [List.cons_append] at h
    injection h
  have hnodup := List.nodup_cons.1 inv.hnodup
  refine ⟨hrest, fun u hu => inv.hqa u (List.mem_cons_of_mem w hu),
    inv.hqb, hnodup.2, fun u hu => inv.hqd u (List.mem_cons_of_mem w hu),
    inv.hsd, inv.hqd w (List.mem_cons_self w rest), hnodup.1,
    (inv.hqa w (List.mem_cons_self w qa2)).2, inv.hrec, inv.hdom, inv.hcap,
    ?_, ?_, ⟨[], rfl, by intro v hv; cases hv⟩, ?_⟩
  · intro u hk
    have := inv.hhi u hk
    exact this
  · intro u hud hur huw
    refine inv.hscan u hud ?_
    intro h
    rcases List.mem_cons.1 h with h | h
    · exact huw h
    · exact hur h
  · intro u n hu hlt
    obtain ⟨h1, h2⟩ := inv.hclose u n hu hlt
    exact ⟨h1, fun h => h2 (List.mem_cons_of_mem w h)⟩

/-- A completed neighbor scan in the per-source BFS restores the loop
invariant (extending only the deep segment of the queue) and never
overwrites the recorded depth of an already-discovered node. -/
theorem eccScan_correct (g : Nat → List Nat) (s w : Nat) :
    ∀ ns q d st D qa qb, EccScanInv g s w ns q d st D qa qb →
      ∃ qb2, EccInv g s (eccScan D ns q d st).1 (eccScan D ns q d st).2.1
          (eccScan D ns q d st).2.2 D qa qb2 ∧
        ∀ u ∈ d, (eccScan D ns q d st).2.2 u = st u := by
  intro ns
  induction ns with
  | nil =>
    intro q d st D qa qb inv
    refine ⟨qb, ⟨inv.hsplit, inv.hqa, inv.hqb, inv.hnodup, inv.hqd, inv.hsd,
      inv.hrec, inv.hdom, inv.hcap, inv.hhi, ?_, inv.hclose⟩,
      fun u _ => rfl⟩
    intro u hud huq v hv
    by_cases huw : u = w
    · subst huw
      obtain ⟨pre, hpre1, hpre2⟩ := inv.hpre
      rw [List.append_nil] at hpre1
      rw [hpre1] at hv
      exact hpre2 v hv
    · exact inv.hscan u hud huq huw v hv
  | cons n rest ih =>
    intro q d st D qa qb inv
    simp only [eccScan]
    by_cases hnd : n ∈ d
    · rw [if_pos hnd]
      refine ih q d st D qa qb ?_
      obtain ⟨pre, hpre1, hpre2⟩ := inv.hpre
      refine ⟨inv.hsplit, inv.hqa, inv.hqb, inv.hnodup, inv.hqd, inv.hsd,
        inv.hwd, inv.hwq, inv.hwdist, inv.hrec, inv.hdom, inv.hcap, inv.hhi,
        inv.hscan, ⟨pre ++ [n], by rw [hpre1, List.append_assoc]; rfl, ?_⟩,
        inv.hclose⟩
      intro v hv
      rcases List.mem_append.1 hv with h | h
      · exact hpre2 v h
      · cases List.mem_singleton.1 h
        exact hnd
    · rw [if_neg hnd]
      obtain ⟨pre, hpre1, hpre2⟩ := inv.hpre
      have hng : n ∈ g w := by
        rw [hpre1]
        exact List.mem_append_right pre (List.mem_cons_self n rest)
      have hnq : n ∉ q := fun h => hnd (inv.hqd n h)
      have hnw : n ≠ w := fun h => hnd (h ▸ inv.hwd)
      have hdn : IsDist g s n (D + 1) := by
        have hr : Reach g s n := ⟨D + 1, inv.hwdist.1.step hng⟩
        obtain ⟨m0, hm0⟩ := exists_isDist hr
        have hub : m0 ≤ D + 1 := hm0.2 _ (inv.hwdist.1.step hng)
        have hlb : ¬m0 ≤ D := fun hle => hnd (eccScanInv_mem_d inv n m0 hm0 hle)
        have hm0D : m0 = D + 1 := by omega
        rwa [hm0D] at hm0
      have hsinv : EccScanInv g s w rest (q ++ [n]) (n :: d)
          (fun x => if x = n then some (D + 1) else st x) D qa (qb ++ [n]) := by
        refine ⟨?_, ?_, ?_, ?_, ?_, List.mem_cons_of_mem n inv.hsd,
          ?_, ?_, inv.hwdist, ?_, ?_, ?_, ?_, ?_, ?_, ?_⟩
        · rw [inv.hsplit, List.append_assoc]
        · intro u hu
          have hun : u ≠ n := by
            intro heq
            subst heq
            refine hnq ?_
            rw [inv.hsplit]
            exact List.mem_append_left qb hu
          obtain ⟨h1, h2⟩ := inv.hqa u hu
          refine ⟨?_, h2⟩
          simp [hun, h1]
        · intro u hu
          rcases List.mem_append.1 hu with h | h
          · have hun : u ≠ n := by
              intro heq
              subst heq
              exact hnd (inv.hqd u (inv.hsplit ▸
                List.mem_append_right qa h))
            obtain ⟨h1, h2⟩ := inv.hqb u h
            refine ⟨?_, h2⟩
            simp [hun, h1]
          · cases List.mem_singleton.1 h
            exact ⟨by simp, hdn⟩
        · refine List.nodup_append.2 ⟨inv.hnodup, List.nodup_singleton n, ?_⟩
          intro a ha ha2
          cases List.mem_singleton.1 ha2
          exact hnq ha
        · intro u hu
          rcases List.mem_append.1 hu with h | h
          · exact List.mem_cons_of_mem n (inv.hqd u h)
          · cases List.mem_singleton.1 h
            exact List.mem_cons_self n d
        · exact List.mem_cons_of_mem n inv.hwd
        · intro h
          rcases List.mem_append.1 h with h | h
          · exact inv.hwq h
          · exact hnw (List.mem_singleton.1 h).symm
        · intro u hu
          rcases List.mem_cons.1 hu with heq | hud
          · subst heq
            exact ⟨D + 1, by simp, hdn⟩
          · obtain ⟨k, h1, h2⟩ := inv.hrec u hud
            have hun : u ≠ n := fun heq => hnd (heq ▸ hud)
            exact ⟨k, by simp [hun, h1], h2⟩
        · intro u k hk
          by_cases hun : u = n
          · subst hun
            exact List.mem_cons_self u d
          · rw [if_neg hun] at hk
            exact List.mem_cons_of_mem n (inv.hdom u k hk)
        · intro u k hk
          by_cases hun : u = n
          · subst hun
            rw [if_pos rfl] at hk
            injection hk with h2
            omega
          · rw [if_neg hun] at hk
            exact inv.hcap u k hk
        · intro u hk
          by_cases hun : u = n
          · subst hun
            exact List.mem_append_right qb (List.mem_singleton.2 rfl)
          · rw [if_neg hun] at hk
            exact List.mem_append_left [n] (inv.hhi u hk)
        · intro u hud huq huw v hv
          have hun : u ≠ n := by
            intro heq
            subst heq
            exact huq (List.mem_append_right q (List.mem_singleton.2 rfl))
          have hud2 : u ∈ d := by
            rcases List.mem_cons.1 hud with h | h
            · exact absurd h hun
            · exact h
          have huq2 : u ∉ q := fun h => huq (List.mem_append_left [n] h)
          exact List.mem_cons_of_mem n (inv.hscan u hud2 huq2 huw v hv)
        · refine ⟨pre ++ [n], by rw [hpre1, List.append_assoc]; rfl, ?_⟩
          intro v hv
          rcases List.mem_append.1 hv with h | h
          · exact List.mem_cons_of_mem n (hpre2 v h)
          · cases List.mem_singleton.1 h
            exact List.mem_cons_self n d
        · intro u n0 hu hlt
          obtain ⟨h1, h2⟩ := inv.hclose u n0 hu hlt
          refine ⟨List.mem_cons_of_mem n h1, ?_⟩
          intro h
          rcases List.mem_append.1 h with h | h
          · exact h2 h
          · exact hnd ((List.mem_singleton.1 h) ▸ h1)
      obtain ⟨qb2, hinv2, hpres⟩ := ih (q ++ [n]) (n :: d)
        (fun x => if x = n then some (D + 1) else st x) D qa (qb ++ [n]) hsinv
      refine ⟨qb2, hinv2, ?_⟩
      intro u hud
      rw [hpres u (List.mem_cons_of_mem n hud)]
      have hun : u ≠ n := fun heq => hnd (heq ▸ hud)
      simp [hun]

/-- At queue exhaustion the recorded depth of the last dequeued node bounds
every recorded depth, all recorded depths are exact distances, and every
reachable node has a recorded depth. -/
theorem eccInv_final {g : Nat → List Nat} {s : Nat} {d : List Nat}
    {st : Nat → Option Nat} {last D : Nat} {qa qb : List Nat}
    (inv : EccInv g s [] d st D qa qb) (hlast : st last = some D)
    (hldist : IsDist g s last D) :
    ∃ D2, st last = some D2 ∧ IsDist g s last D2 ∧
      (∀ u k, st u = some k → k ≤ D2 ∧ IsDist g s u k) ∧
      ∀ u, Reach g s u → ∃ k, st u = some k := by
  have hqbnil : qb = [] := (List.append_eq_nil.1 inv.hsplit.symm).2
  refine ⟨D, hlast, hldist, ?_, ?_⟩
  · intro u k hk
    have hcap := inv.hcap u k hk
    have hne : k ≠ D + 1 := by
      intro heq
      have := inv.hhi u (heq ▸ hk)
      rw [hqbnil] at this
      cases this
    obtain ⟨k2, h1, h2⟩ := inv.hrec u (inv.hdom u k hk)
    rw [hk] at h1
    injection h1 with h1
    subst h1
    exact ⟨by omega, h2⟩
  · intro u hu
    obtain ⟨n, hn⟩ := hu
    have hclosed : ∀ x ∈ d, ∀ v ∈ g x, v ∈ d :=
      fun x hx => inv.hscan x hx (List.not_mem_nil x)
    have hud : u ∈ d := reach_mem_closed inv.hsd hclosed hn
    obtain ⟨k, h1, -⟩ := inv.hrec u hud
    exact ⟨k, h1⟩

/-- Full correctness of the per-source BFS loop of `find_longest_path`:
when the queue empties, the last dequeued node's recorded depth is the
maximum recorded depth, recorded depths are exact distances, and every
reachable node was recorded. -/
theorem eccLoop_correct (g : Nat → List Nat) (s : Nat) :
    ∀ fuel q d st last D qa qb, EccInv g s q d st D qa qb →
      st last = some D → IsDist g s last D →
      ∀ last2 st2, eccLoop g fuel q d st last = some (last2, st2) →
        ∃ D2, st2 last2 = some D2 ∧ IsDist g s last2 D2 ∧
          (∀ u k, st2 u = some k → k ≤ D2 ∧ IsDist g s u k) ∧
          ∀ u, Reach g s u → ∃ k, st2 u = some k := by
  intro fuel
  induction fuel with
  | zero =>
    intro q d st last D qa qb inv hlast hldist last2 st2 h
    cases q with
    | nil =>
      injection h with h2
      injection h2 with h3 h4
      subst h3
      subst h4
      exact eccInv_final inv hlast hldist
    | cons w rest => cases h
  | succ f ih =>
    intro q d st last D qa qb inv hlast hldist last2 st2 h
    cases q with
    | nil =>
      injection h with h2
      injection h2 with h3 h4
      subst h3
      subst h4
      exact eccInv_final inv hlast hldist
    | cons w rest =>
      have hsinv : ∃ D2 qa2 qb2,
          EccScanInv g s w (g w) rest d st D2 qa2 qb2 := by
        cases qa with
        | nil =>
          have hq : w :: rest = qb := by simpa using inv.hsplit
          have inv2 := eccInv_shift inv
          rw [← hq] at inv2
          exact ⟨D + 1, rest, [], eccInv_pop inv2⟩
        | cons w2 qa2 =>
          have hw2 : w2 = w := by
            have h2 := inv.hsplit
            rw [List.cons_append] at h2
            injection h2 with h3 h4
            exact h3.symm
          subst hw2
          exact ⟨D, qa2, qb, eccInv_pop inv⟩
      obtain ⟨D2, qa2, qb2, sinv⟩ := hsinv
      have hwst : st w = some D2 := by
        obtain ⟨k, h1, h2⟩ := sinv.hrec w sinv.hwd
        have hk : k = D2 := isDist_unique h2 sinv.hwdist
        subst hk
        exact h1
      simp only [eccLoop] at h
      rw [hwst] at h
      have h2 : eccLoop g f (eccScan D2 (g w) rest d st).1
          (eccScan D2 (g w) rest d st).2.1
          (eccScan D2 (g w) rest d st).2.2 w = some (last2, st2) := h
      obtain ⟨qb3, inv3, hpres⟩ :=
        eccScan_correct g s w (g w) rest d st D2 qa2 qb2 sinv
      refine ih _ _ _ w D2 qa2 qb3 inv3 ?_ sinv.hwdist last2 st2 h2
      rw [hpres w sinv.hwd]
      exact hwst

/-- The initial state of the per-source BFS satisfies the invariant. -/
theorem eccInv_init (g : Nat → List Nat) (s : Nat) :
    EccInv g s [s] [s] (fun x => if x = s then some 0 else none) 0 [s] [] := by
  refine ⟨rfl, ?_, ?_, List.nodup_singleton s, fun u hu => hu,
    List.mem_singleton.2 rfl, ?_, ?_, ?_, ?_, ?_, ?_⟩
  · intro u hu
    cases List.mem_singleton.1 hu
    exact ⟨by simp, isDist_self g s⟩
  · intro u hu
    cases hu
  · intro u hu
    cases List.mem_singleton.1 hu
    exact ⟨0, by simp, isDist_self g s⟩
  · intro u k hk
    by_cases hus : u = s
    · subst hus
      exact List.mem_singleton.2 rfl
    · rw [if_neg hus] at hk
      cases hk
  · intro u k hk
    by_cases hus : u = s
    · subst hus
      rw [if_pos rfl] at hk
      injection hk with hk
      omega
    · rw [if_neg hus] at hk
      cases hk
  · intro u hk
    by_cases hus : u = s
    · subst hus
      rw [if_pos rfl] at hk
      cases hk
    · rw [if_neg hus] at hk
      cases hk
  · intro u hu huq
    exact absurd hu huq
  · intro u n hu hlt
    omega

theorem isEcc_unique {g : Nat → List Nat} {s m n : Nat}
    (h1 : IsEcc g s m) (h2 : IsEcc g s n) : m = n := by
  obtain ⟨⟨v1, hv1⟩, hb1⟩ := h1
  obtain ⟨⟨v2, hv2⟩, hb2⟩ := h2
  exact Nat.le_antisymm (hb2 v1 m hv1) (hb1 v2 n hv2)

/-- A finished per-source BFS reports, via its last dequeued node, exactly
the eccentricity of the source, and its `steps_to` map records exact BFS
distances. -/
theorem eccRun_correct {g : Nat → List Nat} {s fuel last : Nat}
    {st2 : Nat → Option Nat} (h : eccRun g s fuel = some (last, st2)) :
    ∃ m, st2 last = some m ∧ IsEcc g s m ∧ IsDist g s last m ∧
      ∀ u k, st2 u = some k → IsDist g s u k := by
  obtain ⟨D2, h1, h2, h3, h4⟩ := eccLoop_correct g s fuel [s] [s]
    (fun x => if x = s then some 0 else none) s 0 [s] []
    (eccInv_init g s) (by simp) (isDist_self g s) last st2 h
  refine ⟨D2, h1, ⟨⟨last, h2⟩, ?_⟩, h2, fun u k hk => (h3 u k hk).2⟩
  intro v n hv
  obtain ⟨k, hk⟩ := h4 v ⟨n, hv.1⟩
  obtain ⟨hk1, hk2⟩ := h3 v k hk
  have := isDist_unique hk2 hv
  omega

/-- The `for start in group:` fold of `find_longest_path` computes the
maximum per-source eccentricity: whatever triple it reports names a listed
source, that source's exact eccentricity with its farthest node, and a
value dominating the eccentricity of every listed source. -/
theorem flpFold_spec (g : Nat → List Nat) (fuel : Nat) (Q : Nat → Prop) :
    ∀ gl acc res,
      (∀ u ∈ gl, Q u) →
      (∀ s0 e0 m0, acc = some (s0, e0, m0) →
        Q s0 ∧ IsEcc g s0 m0 ∧ IsDist g s0 e0 m0) →
      flpFold g fuel gl acc = some res →
      ∀ s0 e0 m0, res = some (s0, e0, m0) →
        Q s0 ∧ IsEcc g s0 m0 ∧ IsDist g s0 e0 m0 ∧
          (∀ s1 e1 m1, acc = some (s1, e1, m1) → m1 ≤ m0) ∧
          ∀ u ∈ gl, ∀ k, IsEcc g u k → k ≤ m0 := by
  intro gl
  induction gl with
  | nil =>
    intro acc res hQ hacc h s0 e0 m0 hres
    have h2 : some acc = some res := h
    injection h2 with h2
    subst h2
    obtain ⟨q1, q2, q3⟩ := hacc s0 e0 m0 hres
    refine ⟨q1, q2, q3, ?_, ?_⟩
    · intro s1 e1 m1 he
      rw [hres] at he
      injection he with he
      cases he
      exact le_rfl
    · intro u hu
      cases hu
  | cons s rest ih =>
    intro acc res hQ hacc h s0 e0 m0 hres
    simp only [flpFold] at h
    split at h
    next hrun => cases h
    next last st hrun =>
      split at h
      next hst => cases h
      next len hst =>
        obtain ⟨m, hm1, hecc, hdist, -⟩ := eccRun_correct hrun
        have hlen : len = m := by
          rw [hm1] at hst
          injection hst with h5
          exact h5.symm
        subst hlen
        have hQs : Q s := hQ s (List.mem_cons_self s rest)
        have hQrest : ∀ u ∈ rest, Q u :=
          fun u hu => hQ u (List.mem_cons_of_mem s hu)
        split at h
        next hlt =>
          have hacc2 : ∀ s0 e0 m0,
              (some (s, last, len) : Option (Nat × Nat × Nat)) =
                some (s0, e0, m0) →
              Q s0 ∧ IsEcc g s0 m0 ∧ IsDist g s0 e0 m0 := by
            intro s0 e0 m0 he
            injection he with he
            cases he
            exact ⟨hQs, hecc, hdist⟩
          obtain ⟨q1, q2, q3, haccb, hglb⟩ :=
            ih (some (s, last, len)) res hQrest hacc2 h s0 e0 m0 hres
          have hlenm0 : len ≤ m0 := haccb s last len rfl
          refine ⟨q1, q2, q3, ?_, ?_⟩
          · intro s2 e2 m2 he
            rw [he] at hlt
            have hlt2 : m2 < len := hlt
            omega
          · intro u hu k hk
            rcases List.mem_cons.1 hu with heq | hu2
            · subst heq
              have := isEcc_unique hk hecc
              omega
            · exact hglb u hu2 k hk
        next hlt =>
          obtain ⟨q1, q2, q3, haccb, hglb⟩ :=
            ih acc res hQrest hacc h s0 e0 m0 hres
          refine ⟨q1, q2, q3, haccb, ?_⟩
          intro u hu k hk
          rcases List.mem_cons.1 hu with heq | hu2
          · subst heq
            have hkl := isEcc_unique hk hecc
            cases hacceq : acc with
            | none =>
              rw [hacceq] at hlt
              have hlt2 : ¬0 < len := hlt
              omega
            | some tr =>
              obtain ⟨s1, e1, m1⟩ := tr
              rw [hacceq] at hlt
              have hlt2 : ¬m1 < len := hlt
              have := haccb s1 e1 m1 hacceq
              omega
          · exact hglb u hu2 k hk

/-- C8 amended: whenever `find_longest_path` reports a result `(s, e, m)`
(which it does except when every source's eccentricity is 0, where it
crashes instead — see the counterexample and C10): `s` belongs to the
component of the queried word, `m` is exactly `s`'s eccentricity, `e` is a
node at distance exactly `m` from `s` (the farthest node, the last one
dequeued by `s`'s BFS), and no node of the component has a larger
eccentricity.  Moreover — the per-source property — every finished
per-source BFS records, at its last dequeued node, exactly the source's
eccentricity. -/
theorem find_longest_path_correct (g : Nat → List Nat) (w : Nat)
    (fuel : Nat) (s e m : Nat)
    (hrun : find_longest_path g w fuel = some (some (s, e, m))) :
    Reach g w s ∧ IsEcc g s m ∧ IsDist g s e m ∧
      (∀ u, Reach g w u → ∀ k, IsEcc g u k → k ≤ m) ∧
      ∀ u f2 l2 st2, eccRun g u f2 = some (l2, st2) →
        ∃ k, st2 l2 = some k ∧ IsEcc g u k := by
  unfold find_longest_path at hrun
  split at hrun
  next hgrp => cases hrun
  next group hgrp =>
    have hmem := find_words_in_group_correct hgrp
    have hspec := flpFold_spec g fuel (fun u => Reach g w u) group none
      (some (s, e, m)) (fun u hu => (hmem u).1 hu)
      (by intro s0 e0 m0 he; cases he) hrun s e m rfl
    obtain ⟨hQ, hecc, hdist, -, hglb⟩ := hspec
    refine ⟨hQ, hecc, hdist, ?_, ?_⟩
    · intro u hu k hk
      exact hglb u ((hmem u).2 hu) k hk
    · intro u f2 l2 st2 hrun2
      obtain ⟨k, h1, h2, -, -⟩ := eccRun_correct hrun2
      exact ⟨k, h1, h2⟩

/-- C8 counterexample: for an isolated word (eccentricity 0 component),
`find_longest_path` does not report any maximum/pair at all — the run ends
in the `KeyError` crash (`some none`), so the claim's universally promised
report fails on eccentricity-zero components. -/
theorem find_longest_path_zero_ecc_counterexample :
    find_longest_path (fun _ => []) 3 5 = some none := by
  decide

/-- Witness for C8's amended statement on the two-word component of
`pairDict`: the reported longest path is from id 1 to id 0 with length 1,
which is the component's maximum eccentricity. -/
theorem find_longest_path_correct_witness :
    find_longest_path (fun i => neighbors pairDict i) 0 5 =
        some (some (1, 0, 1)) ∧
      Reach (fun i => neighbors pairDict i) 0 1 ∧
      IsEcc (fun i => neighbors pairDict i) 1 1 ∧
      IsDist (fun i => neighbors pairDict i) 1 0 1 :=
  ⟨by decide,
    (find_longest_path_correct (fun i => neighbors pairDict i) 0 5 1 0 1
      (by decide)).1,
    (find_longest_path_correct (fun i => neighbors pairDict i) 0 5 1 0 1
      (by decide)).2.1,
    (find_longest_path_correct (fun i => neighbors pairDict i) 0 5 1 0 1
      (by decide)).2.2.1⟩
